import Mathlib

/-!
Verification development for the website-test-bot crawler and test generator.

The Python sources under `src/website_test_bot/` are shallowly embedded here:

* URL handling (`urllib.parse.urlsplit` / `urlparse` / `urlunparse` / `urljoin`
  as used by `crawler/crawler.py`) is modelled on `List Char`, following the
  CPython reference implementation of these functions.  Two deliberate,
  documented deviations: (1) the WHATWG sanitisation added to recent CPython
  (stripping leading/trailing control characters and removing tab/newline)
  is omitted, so the model covers URL strings without such characters;
  (2) the `ValueError` raised by CPython for unbalanced brackets in a netloc
  is omitted (it cannot occur for the bracket-free URLs considered here).
  Character classes (`isalpha`, `lower`, ...) are modelled at ASCII level,
  which agrees with CPython on the ASCII strings manipulated by this code.
* The crawl loop of `crawl_website` is modelled as a deterministic batch
  transition system over an explicit state; the live web is abstracted as a
  function from URL to a fetched-page description, and one batch performs the
  page fetches of `asyncio.gather` followed by the sequential merge loop.
* The generator (`generator/generator.py`) name-synthesis and page-object
  construction are modelled as pure functions; a Python `IndexError` is
  modelled by `Option.none`.
-/

/-! ## Character-level helpers (ASCII models of the Python predicates) -/

/-- Lists of characters; URL strings are manipulated at this level. -/
abbrev Chars := List Char

/-- WHATWG C0-control-or-space test (`_WHATWG_C0_CONTROL_OR_SPACE`):
code points up to and including U+0020. -/
def isC0OrSpace (c : Char) : Bool :=
  c.toNat ≤ 32

/-- The characters removed from URLs by CPython `urlsplit`
(`_UNSAFE_URL_BYTES_TO_REMOVE`): tab, carriage return, newline. -/
def isUnsafeUrlChar (c : Char) : Bool :=
  c = '\t' || c = '\r' || c = '\n'

/-- CPython `urlsplit` sanitisation of the URL argument: strip leading
C0-control/space characters (only the left side, per the comment in the
source), then remove every tab, carriage return and newline. -/
def sanitizeUrl (u : Chars) : Chars :=
  (u.dropWhile isC0OrSpace).filter (fun c => !(isUnsafeUrlChar c))

/-- CPython `urlsplit` sanitisation of the default-scheme argument: strip
C0-control/space characters from both ends, then remove unsafe characters. -/
def sanitizeScheme (s : Chars) : Chars :=
  ((((s.dropWhile isC0OrSpace).reverse.dropWhile isC0OrSpace).reverse).filter
    (fun c => !(isUnsafeUrlChar c)))

/-- Model of the CPython scheme-character test: the characters allowed after
the first character of a URL scheme (`scheme_chars` in `urllib/parse.py`). -/
def isSchemeChar (c : Char) : Bool :=
  c.isAlphanum || c = '+' || c = '-' || c = '.'

/-- Model of the CPython validity test for the candidate scheme prefix of a
URL: nonempty, first character an (ASCII) letter, remaining characters in
`scheme_chars`. -/
def isSchemeName (l : Chars) : Bool :=
  match l with
  | [] => false
  | c :: cs => c.isAlpha && cs.all isSchemeChar

/-! ## Splitting helpers -/

/-- Split a character list at the first occurrence of `d`:
`splitFirst d l = some (a, b)` iff `l = a ++ d :: b` with `d ∉ a`;
`none` iff `d ∉ l`.  This models the Python `str.split(d, 1)` /
`str.find(d)` idioms used by `urllib.parse`. -/
def splitFirst (d : Char) : Chars → Option (Chars × Chars)
  | [] => none
  | c :: cs =>
    if c = d then some ([], cs)
    else
      match splitFirst d cs with
      | some (a, b) => some (c :: a, b)
      | none => none

/-- Characters that terminate the netloc portion of a URL
(`_splitnetloc` in `urllib/parse.py` searches for the first of these). -/
def isNetlocDelim (c : Char) : Bool :=
  c = '/' || c = '?' || c = '#'

/-- Split on every occurrence of `d`, modelling Python `str.split(d)`;
the result is always nonempty. -/
def splitSep (d : Char) : Chars → List Chars
  | [] => [[]]
  | c :: cs =>
    if c = d then [] :: splitSep d cs
    else
      match splitSep d cs with
      | a :: rest => (c :: a) :: rest
      | [] => [[c]]

/-- Join with separator `d`, modelling Python `d.join(...)`. -/
def joinSep (d : Char) : List Chars → Chars
  | [] => []
  | [a] => a
  | a :: rest => a ++ d :: joinSep d rest

/-! ## urlsplit / urlunsplit -/

/-- Result of `urllib.parse.urlsplit`: scheme, netloc, path, query, fragment. -/
structure UrlSplit where
  scheme : Chars
  netloc : Chars
  path : Chars
  query : Chars
  fragment : Chars
  deriving Repr, DecidableEq

/-- Scheme extraction of CPython `urlsplit`: split at the first colon when the
prefix before it is a valid scheme name, lowercasing the scheme; otherwise the
caller-supplied default scheme is used and the URL is left intact. -/
def splitScheme (dflt : Chars) (u : Chars) : Chars × Chars :=
  match splitFirst ':' u with
  | some (pre, post) =>
    if isSchemeName pre then (pre.map Char.toLower, post) else (dflt, u)
  | none => (dflt, u)

/-- The netloc stage of `urlsplit`: when the remainder begins with `//`,
take the netloc up to the first delimiter (`_splitnetloc`). -/
def splitNetlocStage (rest0 : Chars) : Chars × Chars :=
  if rest0.take 2 = ['/', '/'] then
    ((rest0.drop 2).takeWhile (fun c => !(isNetlocDelim c)),
     (rest0.drop 2).dropWhile (fun c => !(isNetlocDelim c)))
  else ([], rest0)

/-- The fragment stage of `urlsplit`: split at the first `#`, if any. -/
def splitFragStage (rest1 : Chars) : Chars × Chars :=
  match splitFirst '#' rest1 with
  | some (a, b) => (a, b)
  | none => (rest1, [])

/-- The query stage of `urlsplit`: split at the first `?`, if any. -/
def splitQueryStage (rest2 : Chars) : Chars × Chars :=
  match splitFirst '?' rest2 with
  | some (a, b) => (a, b)
  | none => (rest2, [])

/-- Model of `urllib.parse.urlsplit(url, scheme=dflt)` with fragments
allowed, following the CPython 3.11 source.  The `ValueError` raised for
unbalanced brackets in a netloc and the `_checknetloc` NFKC check are
omitted: both only reject exotic inputs and neither produces a value. -/
def urlsplitChars (dflt : Chars) (u : Chars) : UrlSplit :=
  let u := sanitizeUrl u
  let dflt := sanitizeScheme dflt
  let sp := splitScheme dflt u
  let nl := splitNetlocStage sp.2
  let fr := splitFragStage nl.2
  let pq := splitQueryStage fr.1
  ⟨sp.1, nl.1, pq.1, pq.2, fr.2⟩

/-- CPython `uses_netloc` scheme list. -/
def usesNetloc : List Chars :=
  (["", "ftp", "http", "gopher", "nntp", "telnet", "imap", "wais", "file",
    "mms", "https", "shttp", "snews", "prospero", "rtsp", "rtsps", "rtspu",
    "rsync", "svn", "svn+ssh", "sftp", "nfs", "git", "git+ssh", "ws",
    "wss"].map String.data)

/-- Model of `urllib.parse.urlunsplit`, following the CPython 3.11 source:
the authority marker `//` is emitted when the netloc is nonempty, or when
the scheme is a known netloc-using scheme and the path does not already
begin with `//`. -/
def urlunsplitChars (p : UrlSplit) : Chars :=
  let url := p.path
  let url :=
    if p.netloc ≠ [] ∨
        (p.scheme ≠ [] ∧ usesNetloc.contains p.scheme ∧ url.take 2 ≠ ['/', '/']) then
      '/' :: '/' :: (p.netloc ++ (if url ≠ [] ∧ url.take 1 ≠ ['/'] then '/' :: url else url))
    else url
  let url := if p.scheme ≠ [] then p.scheme ++ ':' :: url else url
  let url := if p.query ≠ [] then url ++ '?' :: p.query else url
  if p.fragment ≠ [] then url ++ '#' :: p.fragment else url

/-! ## urlparse / urlunparse (with the params component) -/

/-- Result of `urllib.parse.urlparse`: like `UrlSplit` but with the path
params split out. -/
structure UrlParseResult where
  scheme : Chars
  netloc : Chars
  path : Chars
  params : Chars
  query : Chars
  fragment : Chars
  deriving Repr, DecidableEq

/-- Model of CPython `_splitparams`: split the params off a path, looking for
a semicolon only in the last path segment. -/
def splitParams (pa : Chars) : Chars × Chars :=
  if ('/' : Char) ∈ pa then
    match splitFirst '/' pa.reverse with
    | some (revSuffix, revPre) =>
      match splitFirst ';' revSuffix.reverse with
      | some (x, y) => (('/' :: revPre).reverse ++ x, y)
      | none => (pa, [])
    | none => (pa, [])
  else
    match splitFirst ';' pa with
    | some (x, y) => (x, y)
    | none => (pa, [])

/-- CPython `uses_params` scheme list. -/
def usesParams : List Chars :=
  (["", "ftp", "hdl", "prospero", "http", "imap", "https", "shttp", "rtsp",
    "rtsps", "rtspu", "sip", "sips", "mms", "sftp", "tel"].map String.data)

/-- CPython `uses_relative` scheme list. -/
def usesRelative : List Chars :=
  (["", "ftp", "http", "gopher", "nntp", "imap", "wais", "file", "https",
    "shttp", "mms", "prospero", "rtsp", "rtsps", "rtspu", "sftp", "svn",
    "svn+ssh", "ws", "wss"].map String.data)

/-- Model of `urllib.parse.urlparse(url, scheme=dflt)`. -/
def urlparseChars (dflt : Chars) (u : Chars) : UrlParseResult :=
  let s := urlsplitChars dflt u
  if usesParams.contains s.scheme ∧ (';' : Char) ∈ s.path then
    let pp := splitParams s.path
    ⟨s.scheme, s.netloc, pp.1, pp.2, s.query, s.fragment⟩
  else ⟨s.scheme, s.netloc, s.path, [], s.query, s.fragment⟩

/-- Model of `urllib.parse.urlunparse`. -/
def urlunparseChars (p : UrlParseResult) : Chars :=
  let url := if p.params ≠ [] then p.path ++ ';' :: p.params else p.path
  urlunsplitChars ⟨p.scheme, p.netloc, url, p.query, p.fragment⟩

/-- URL canonicalisation performed inline by `extract_links`
(crawler.py lines 210-220): parse, keep scheme/netloc/path/params/query,
drop the fragment, reassemble. -/
def canonChars (u : Chars) : Chars :=
  let p := urlparseChars [] u
  urlunparseChars ⟨p.scheme, p.netloc, p.path, p.params, p.query, []⟩

/-- The path/params recombination performed by `urlparse` followed by
`urlunparse`: when the params split applies, the split pieces are joined
back with a semicolon unless the params part is empty. -/
def recombineParams (sch pa : Chars) : Chars :=
  if usesParams.contains sch ∧ (';' : Char) ∈ pa then
    let pp := splitParams pa
    if pp.2 ≠ [] then pp.1 ++ ';' :: pp.2 else pp.1
  else pa

/-! ## urljoin -/

/-- Model of the CPython list surgery `segments[1:-1] = filter(None, segments[1:-1])`
inside `urljoin`: drop empty segments, keeping the first and last entries. -/
def filterMiddle (segs : List Chars) : List Chars :=
  match segs with
  | [] => []
  | [a] => [a]
  | a :: rest => a :: ((rest.dropLast.filter (fun s => s ≠ [])) ++ [rest.getLastD []])

/-- Model of `urllib.parse.urljoin(base, url)`, following the CPython
reference implementation (scheme compatibility tests, netloc inheritance,
RFC 3986 style dot-segment resolution). -/
def urljoinChars (base url : Chars) : Chars :=
  if base = [] then url
  else if url = [] then base
  else
    let b := urlparseChars [] base
    let r := urlparseChars b.scheme url
    if r.scheme ≠ b.scheme ∨ ¬ usesRelative.contains r.scheme then url
    else
      if usesNetloc.contains r.scheme ∧ r.netloc ≠ [] then
        urlunparseChars ⟨r.scheme, r.netloc, r.path, r.params, r.query, r.fragment⟩
      else
        let netloc := if usesNetloc.contains r.scheme then b.netloc else r.netloc
        if r.path = [] ∧ r.params = [] then
          let query := if r.query = [] then b.query else r.query
          urlunparseChars ⟨r.scheme, netloc, b.path, b.params, query, r.fragment⟩
        else
          let baseParts := splitSep '/' b.path
          let baseParts :=
            if baseParts.getLastD [] ≠ [] then baseParts.dropLast else baseParts
          let segments :=
            if r.path.take 1 = ['/'] then splitSep '/' r.path
            else filterMiddle (baseParts ++ splitSep '/' r.path)
          let resolved := segments.foldl (fun acc seg =>
            if seg = ['.', '.'] then acc.dropLast
            else if seg = ['.'] then acc
            else acc ++ [seg]) []
          let resolved :=
            if segments.getLastD [] = ['.'] ∨ segments.getLastD [] = ['.', '.'] then
              resolved ++ [[]]
            else resolved
          let joined := joinSep '/' resolved
          let path := if joined = [] then ['/'] else joined
          urlunparseChars ⟨r.scheme, netloc, path, r.params, r.query, r.fragment⟩

/-! ## String-level URL interface -/

/-- String-level canonicalisation, as applied to every link returned by
`extract_links`. -/
def canonUrl (u : String) : String := ⟨canonChars u.data⟩

/-- String-level `urljoin`. -/
def urljoinUrl (base u : String) : String := ⟨urljoinChars base.data u.data⟩

/-- String-level `urlsplit` with empty default scheme. -/
def urlsplitUrl (u : String) : UrlSplit := urlsplitChars [] u.data

/-- The `base_url` computed by `crawl_page` (crawler.py lines 290-291):
`f"{scheme}://{netloc}"` from `urlparse(url)`. -/
def pageBase (url : String) : String :=
  ⟨(urlsplitUrl url).scheme ++ (':' :: '/' :: '/' :: (urlsplitUrl url).netloc)⟩

/-- Reducible model of Python `str.startswith` (and of the Lean library
function `String.startsWith`, which does not reduce in the kernel). -/
def strStartsWith (s pre : String) : Bool := pre.data.isPrefixOf s.data

/-- Reducible model of Python `str.endswith`. -/
def strEndsWith (s post : String) : Bool :=
  post.data.reverse.isPrefixOf s.data.reverse

/-- ASCII model of Python `str.lower()`; agrees with CPython on the ASCII
strings handled by this code base. -/
def lowerStr (s : String) : String := ⟨s.data.map Char.toLower⟩

/-! ## Crawler data model (crawler/models.py)

The pydantic models become plain structures; `Dict` fields become
insertion-ordered association lists, `Set` fields become membership lists,
`Optional` fields become `Option`.  Integer fields that are always
nonnegative in this program (depths, HTTP status codes) are modelled as
`Nat`. -/

/-- Model of `CrawlElement`. -/
structure CrawlElement where
  selector : String
  element_type : String
  text : Option String := none
  attributes : List (String × String) := []
  is_clickable : Bool := false
  is_visible : Bool := true
  screenshot_path : Option String := none
  deriving Repr, DecidableEq

/-- Model of `CrawlForm`. -/
structure CrawlForm where
  form_selector : String
  action : Option String := none
  method : String := "GET"
  fields : List CrawlElement := []
  submit_button : Option CrawlElement := none
  sample_data : List (String × String) := []
  deriving Repr, DecidableEq

/-- Model of `CrawlPage`. -/
structure CrawlPage where
  url : String
  title : String := ""
  depth : Nat := 0
  parent_url : Option String := none
  status_code : Nat := 200
  content_type : String := "text/html"
  elements : List CrawlElement := []
  forms : List CrawlForm := []
  links : List String := []
  screenshot_path : Option String := none
  html_path : Option String := none
  has_errors : Bool := false
  error_message : Option String := none
  deriving Repr, DecidableEq

/-- Insertion-ordered dictionary update, modelling assignment into a Python
dict: overwrite in place when the key exists, append otherwise. -/
def dictInsert {α : Type} (d : List (String × α)) (k : String) (v : α) :
    List (String × α) :=
  match d with
  | [] => [(k, v)]
  | (k0, v0) :: rest => if k0 = k then (k, v) :: rest else (k0, v0) :: dictInsert rest k v

/-- Model of adding an element to a Python set. -/
def setInsert (s : List String) (x : String) : List String :=
  if x ∈ s then s else s ++ [x]

/-- Crawl-time mutable state of `crawl_website`: the fields of `CrawlData`
that the loop touches, together with the local frontier queue `to_crawl`.
The artifact fields (`output_dir`, timestamps, screenshot paths, `stats`)
are I/O bookkeeping with no bearing on the verified properties. -/
structure CrawlState where
  base_url : String
  pages : List (String × CrawlPage)
  crawl_depth : Nat
  visited_urls : List String
  failed_urls : List (String × String)
  frontier : List (String × Nat × Option String)
  deriving Repr, DecidableEq

/-- The configuration values read by the crawl loop
(`config.crawler.*`; config.py validates all three numerics with `ge=1`).
`exclude_match url` models `any(re.search(p, url) for p in exclude_patterns)`;
the regular-expression engine itself is abstracted as a predicate. -/
structure CrawlerConfig where
  depth : Nat
  max_pages : Nat
  concurrency : Nat
  exclude_match : String → Bool

/-- The file extensions rejected by `is_url_allowed`. -/
def excludedExtensions : List String :=
  [".pdf", ".jpg", ".jpeg", ".png", ".gif", ".svg", ".css", ".js"]

/-- Model of `is_url_allowed` (crawler.py lines 303-334). -/
def is_url_allowed (cfg : CrawlerConfig) (url : String) : Bool :=
  if cfg.exclude_match url then false
  else
    let url_parts := urlparseChars [] url.data
    if ¬ (url_parts.scheme = "http".data ∨ url_parts.scheme = "https".data) then false
    else
      let path := lowerStr ⟨url_parts.path⟩
      if excludedExtensions.any (fun ext => strEndsWith path ext) then false
      else true

/-- Model of `extract_links` (crawler.py lines 189-225): the `href`
attributes found on the page are resolved against the base URL, kept when
the absolute form passes the textual `startswith` test, and canonicalised.
An empty `href` is skipped (`if href:`); element handles that raise are
omitted upstream and so never reach this list. -/
def extract_links (hrefs : List String) (base_url : String) : List String :=
  hrefs.filterMap (fun href =>
    if href ≠ "" then
      let absolute_url := urljoinUrl base_url href
      if strStartsWith absolute_url base_url then some (canonUrl absolute_url)
      else none
    else none)

/-- Description of what the live site serves for one URL: the data that
`crawl_page` can observe through the browser.  `has_errors` abstracts any
exception raised during navigation or extraction for that URL. -/
structure FetchedPage where
  title : String := ""
  status_code : Nat := 200
  content_type : String := "text/html"
  elements : List CrawlElement := []
  forms : List CrawlForm := []
  hrefs : List String := []
  has_errors : Bool := false
  error_message : Option String := none

/-- A website, abstracted as a map from URL to fetched page. -/
abbrev Web := String → FetchedPage

/-- Model of `crawl_page` (crawler.py lines 228-300).  On an error the
`except` branch leaves the record fields at their defaults and sets
`has_errors` / `error_message`; the fields populated before the exception
are irrelevant to the crawl loop, which only consults `url`, `depth`,
`parent_url`, `links`, `has_errors` and `error_message`. -/
def crawl_page (web : Web) (url : String) (depth : Nat) (parent_url : Option String) :
    CrawlPage :=
  let f := web url
  if f.has_errors then
    { url := url, depth := depth, parent_url := parent_url,
      has_errors := true, error_message := f.error_message }
  else
    { url := url, title := f.title, depth := depth, parent_url := parent_url,
      status_code := f.status_code, content_type := f.content_type,
      elements := f.elements, forms := f.forms,
      links := extract_links f.hrefs (pageBase url) }

/-- Model of one iteration of the merge loop `for page in crawled_pages`
(crawler.py lines 370-389): record the page, mark it visited, update the
depth high-water mark, expand links (against the updated visited set and
the as-yet-unextended failed map, exactly as the Python statement order
dictates), and finally record a failure. -/
def merge_page (cfg : CrawlerConfig) (st : CrawlState) (page : CrawlPage) :
    CrawlState :=
  let pages := dictInsert st.pages page.url page
  let visited := setInsert st.visited_urls page.url
  let crawl_depth := max st.crawl_depth page.depth
  let frontier :=
    if page.depth < cfg.depth ∧ page.has_errors = false then
      st.frontier ++
        ((page.links.filter (fun l =>
            !(visited.contains l) &&
            !((st.failed_urls.map Prod.fst).contains l) &&
            is_url_allowed cfg l)).map
          (fun l => (l, page.depth + 1, some page.url)))
    else st.frontier
  let failed :=
    if page.has_errors then
      dictInsert st.failed_urls page.url (page.error_message.getD "Unknown error")
    else st.failed_urls
  { st with pages := pages, visited_urls := visited, crawl_depth := crawl_depth,
            frontier := frontier, failed_urls := failed }

/-- Model of one iteration of the `while` loop of `crawl_website`
(crawler.py lines 359-389): dequeue a batch of up to `concurrency`
entries, crawl them (the `asyncio.gather` of independent pure fetches),
then merge the resulting records in batch order. -/
def run_batch (cfg : CrawlerConfig) (web : Web) (st : CrawlState) : CrawlState :=
  let batch := st.frontier.take cfg.concurrency
  let rest := st.frontier.drop cfg.concurrency
  let crawled := batch.map (fun e => crawl_page web e.1 e.2.1 e.2.2)
  crawled.foldl (merge_page cfg) { st with frontier := rest }

/-- The `while` guard of `crawl_website`:
`to_crawl and len(crawl_data.pages) < config.crawler.max_pages`. -/
def crawl_continues (cfg : CrawlerConfig) (st : CrawlState) : Bool :=
  !st.frontier.isEmpty && decide (st.pages.length < cfg.max_pages)

/-- The crawl loop, with explicit fuel.  With fuel at least the number of
iterations the Python loop performs, the result is the state in which the
Python loop exits of its own accord. -/
def crawl_loop (cfg : CrawlerConfig) (web : Web) : Nat → CrawlState → CrawlState
  | 0, st => st
  | Nat.succ fuel, st =>
    if crawl_continues cfg st then crawl_loop cfg web fuel (run_batch cfg web st)
    else st

/-- Every state the crawl loop passes through (the state before each batch
and the state in which the loop stops): the "points during and after the
crawl" at which the spec invariants are asserted. -/
def crawl_trace (cfg : CrawlerConfig) (web : Web) : Nat → CrawlState → List CrawlState
  | 0, st => [st]
  | Nat.succ fuel, st =>
    if crawl_continues cfg st then st :: crawl_trace cfg web fuel (run_batch cfg web st)
    else [st]

/-- The initial state of `crawl_website`: empty dataset, frontier seeded
with `(url, 0, None)`. -/
def init_state (url : String) : CrawlState :=
  { base_url := url, pages := [], crawl_depth := 0, visited_urls := [],
    failed_urls := [], frontier := [(url, 0, none)] }

/-- Model of `crawl_website` (crawler.py lines 337-404). -/
def crawl_website (cfg : CrawlerConfig) (web : Web) (url : String) (fuel : Nat) :
    CrawlState :=
  crawl_loop cfg web fuel (init_state url)

/-- The statistics computed at the end of `crawl_website`
(crawler.py lines 391-398). -/
def crawl_stats (st : CrawlState) : List (String × Nat) :=
  [("pages", st.pages.length),
   ("failed", st.failed_urls.length),
   ("depth", st.crawl_depth),
   ("links", (st.pages.map (fun p => p.2.links.length)).sum),
   ("forms", (st.pages.map (fun p => p.2.forms.length)).sum),
   ("elements", (st.pages.map (fun p => p.2.elements.length)).sum)]

/-! ## Generator model (generator/generator.py)

Pure models of the name-synthesis and page-object construction functions.
A Python `IndexError` (indexing into an empty string or list) is modelled
by `Option.none`, which then propagates to the caller exactly as the
uncaught exception would. -/

/-- One step of the camel-case regex
`re.sub(r"([a-z0-9])([A-Z])", r"\x5c1_\x5c2", name)`: insert an underscore
between a lowercase/digit character and an uppercase character.  Because no
character is both uppercase and lowercase, two matches can never abut, so
this two-character sliding window has exactly the semantics of the
non-overlapping regex substitution. -/
def camelUnderscore : Chars → Chars
  | [] => []
  | [c] => [c]
  | c1 :: c2 :: rest =>
    if (c1.isLower || c1.isDigit) && c2.isUpper then
      c1 :: '_' :: camelUnderscore (c2 :: rest)
    else c1 :: camelUnderscore (c2 :: rest)

/-- Model of `re.sub(r"_+", "_", name)`: collapse adjacent underscores. -/
def squeezeUnderscores : Chars → Chars
  | [] => []
  | [c] => [c]
  | c1 :: c2 :: rest =>
    if c1 = '_' ∧ c2 = '_' then squeezeUnderscores (c2 :: rest)
    else c1 :: squeezeUnderscores (c2 :: rest)

/-- Model of Python `name.strip("_")`. -/
def stripUnderscores (l : Chars) : Chars :=
  ((l.dropWhile (fun c => c = '_')).reverse.dropWhile (fun c => c = '_')).reverse

/-- Model of `sanitize_name` (generator.py lines 16-35).  `none` models the
`IndexError` raised by `name[0]` when the name is empty. -/
def sanitize_name (name : String) : Option String :=
  let name := name.data.map (fun c => if c.isAlphanum then c else '_')
  match name with
  | [] => none
  | c :: _ =>
    let name := if ¬ c.isAlpha then ("page_".data ++ name) else name
    let name := (camelUnderscore name).map Char.toLower
    let name := squeezeUnderscores name
    some ⟨stripUnderscores name⟩

/-- Model of the prefix regex `re.sub(r"^https?://[^/]+", "", url)` used by
`create_page_object_name`: remove a leading scheme-and-host portion when
present (the host part must be nonempty, per `[^/]+`). -/
def stripSchemeHostRe (u : Chars) : Chars :=
  if u.take 8 = "https://".data then
    let rest := u.drop 8
    if rest.takeWhile (fun c => c ≠ '/') = [] then u
    else rest.dropWhile (fun c => c ≠ '/')
  else if u.take 7 = "http://".data then
    let rest := u.drop 7
    if rest.takeWhile (fun c => c ≠ '/') = [] then u
    else rest.dropWhile (fun c => c ≠ '/')
  else u

/-- Model of Python `url_path.strip("/")`. -/
def stripSlashes (l : Chars) : Chars :=
  ((l.dropWhile (fun c => c = '/')).reverse.dropWhile (fun c => c = '/')).reverse

/-- Model of Python `str.title()` on ASCII text: uppercase every cased
character that follows a non-cased character, lowercase the rest. -/
def titleAux (prevAlpha : Bool) : Chars → Chars
  | [] => []
  | c :: rest =>
    (if prevAlpha then c.toLower else c.toUpper) :: titleAux c.isAlpha rest

/-- Python `word.title()`. -/
def titleWord (w : Chars) : Chars := titleAux false w

/-- Model of `create_page_object_name` (generator.py lines 38-65).  `none`
models an uncaught `IndexError` (possible inside `sanitize_name`, or from
the `[-2]` index when the split has fewer than two entries). -/
def create_page_object_name (page : CrawlPage) : Option String :=
  let rawName : Option String :=
    if page.title ≠ "" then some page.title
    else
      let url_path := stripSlashes (stripSchemeHostRe page.url.data)
      if url_path = [] then some "HomePage"
      else
        let parts := splitSep '/' url_path
        let nm := parts.getLastD []
        if nm ≠ [] then some ⟨nm⟩
        else if parts.length ≥ 2 then some ⟨parts.getD (parts.length - 2) []⟩
        else none
  match rawName with
  | none => none
  | some nm =>
    match sanitize_name nm with
    | none => none
    | some s =>
      let words := splitSep '_' s.data
      let camel_case : String := ⟨(words.map titleWord).foldl (fun a b => a ++ b) []⟩
      some (if strEndsWith camel_case "Page" then camel_case else camel_case ++ "Page")

/-- ASCII whitespace, as recognised by Python `str.split()` with no
arguments. -/
def isPyWhitespace (c : Char) : Bool :=
  c = ' ' || c = '\t' || c = '\n' || c = '\r' || c.toNat = 11 || c.toNat = 12

/-- Model of `attr_class.split()[0]`: the first whitespace-delimited token;
`none` models the `IndexError` on a whitespace-only string. -/
def firstWsToken (l : Chars) : Option Chars :=
  let rest := l.dropWhile isPyWhitespace
  if rest = [] then none
  else some (rest.takeWhile (fun c => !(isPyWhitespace c)))

/-- Python `element.attributes.get(key, "")`. -/
def attrGetD (d : List (String × String)) (k : String) : String :=
  (d.lookup k).getD ""

/-- Contiguous-substring test, modelling the Python `in` operator on
strings. -/
def containsSub (sub : Chars) : Chars → Bool
  | [] => sub.isEmpty
  | c :: rest => sub.isPrefixOf (c :: rest) || containsSub sub rest

/-- Model of `create_element_name` (generator.py lines 68-93).  `none`
models the `IndexError` raised either by `sanitize_name` on an empty
derived name or by `attr_class.split()[0]` on a whitespace-only class
attribute. -/
def create_element_name (element : CrawlElement) : Option String :=
  let rawName : Option String :=
    if element.text.getD "" ≠ "" then some (element.text.getD "")
    else
      let attr_id := attrGetD element.attributes "id"
      let attr_class := attrGetD element.attributes "class"
      if attr_id ≠ "" then some attr_id
      else if attr_class ≠ "" then
        match firstWsToken attr_class.data with
        | some tok => some ⟨tok⟩
        | none => none
      else some element.element_type
  match rawName with
  | none => none
  | some nm =>
    match sanitize_name nm with
    | none => none
    | some s =>
      if containsSub element.element_type.data s.data then some s
      else some (element.element_type ++ "_" ++ s)

/-- Model of `ElementLocator` (generator/models.py). -/
structure ElementLocator where
  name : String
  selector : String
  selector_type : String := "css"
  description : String := ""
  element_type : String := ""
  deriving Repr, DecidableEq

/-- Model of `create_element_locator` (generator.py lines 96-110). -/
def create_element_locator (element : CrawlElement) : Option ElementLocator :=
  (create_element_name element).map (fun n =>
    { name := n, selector := element.selector, selector_type := "css",
      description := element.text.getD "", element_type := element.element_type })

/-- Model of `PageObject` (generator/models.py); the dict-valued fields are
insertion-ordered association lists, the import set a list. -/
structure PageObject where
  name : String
  file_name : String
  url : String
  title : String
  elements : List (String × ElementLocator)
  forms : List (String × List ElementLocator)
  methods : List (String × String)
  imports : List String
  deriving Repr, DecidableEq

/-- Join a list of strings with a separator, modelling `sep.join(...)`. -/
def joinStrSep (sep : String) : List String → String
  | [] => ""
  | [a] => a
  | a :: rest => a ++ sep ++ joinStrSep sep rest

/-- The `__init__` method text synthesised by `create_page_object`. -/
def initMethodBody : String :=
  "def __init__(self, page: Page) -> None:\n        \"\"\"Initialize the page object.\"\"\"\n        self.page = page"

/-- The `navigate` method text synthesised by `create_page_object`. -/
def navigateMethodBody (url : String) : String :=
  "async def navigate(self) -> None:\n        \"\"\"Navigate to the page.\"\"\"\n        await self.page.goto(\"" ++ url ++
    "\")\n        await self.page.wait_for_load_state(\"domcontentloaded\")"

/-- The per-element getter text synthesised by `create_page_object`. -/
def getterMethodBody (name selector : String) : String :=
  "async def get_" ++ name ++ "(self) -> Locator:\n        \"\"\"Get the " ++ name ++
    " element.\"\"\"\n        return self.page.locator(\"" ++ selector ++ "\")"

/-- One field-fill line of a `fill_*` method. -/
def fillLine (e : ElementLocator) : String :=
  "await self.page.locator(\"" ++ e.selector ++ "\").fill(data.get(\"" ++ e.name ++ "\", \"\"))"

/-- The `fill_{form_name}` method text. -/
def fillMethodBody (form_name field_assignments submit_action : String) : String :=
  "async def fill_" ++ form_name ++ "(self, data: dict) -> None:\n        \"\"\"Fill the " ++
    form_name ++ " form.\"\"\"\n        " ++ field_assignments ++ "\n        " ++ submit_action

/-- The elements dictionary built by `create_page_object`: every visible and
clickable element contributes a locator under its synthesised name
(later elements silently overwrite earlier ones on a name collision). -/
def elementsOfPage (els : List CrawlElement) : Option (List (String × ElementLocator)) :=
  els.foldlM (fun d e =>
    if e.is_visible && e.is_clickable then
      (create_element_locator e).map (fun loc => dictInsert d loc.name loc)
    else some d) []

/-- The forms dictionary built by `create_page_object`: visible fields plus
the submit button (when present); a form with no resulting locators is
dropped; included forms are keyed `form_{n}` with `n` counting the forms
included so far plus one. -/
def formsOfPage (forms : List CrawlForm) : Option (List (String × List ElementLocator)) :=
  forms.foldlM (fun fs form => do
    let fieldLocs ← (form.fields.filter (fun f => f.is_visible)).mapM create_element_locator
    let formEls ←
      match form.submit_button with
      | some sb => (create_element_locator sb).map (fun l => fieldLocs ++ [l])
      | none => some fieldLocs
    if formEls ≠ [] then some (dictInsert fs ("form_" ++ toString (fs.length + 1)) formEls)
    else some fs) []

/-- The `fill_{form_name}` method entry for one form, when the form has a
submit locator and a nonempty block of input-field assignments
(`if submit_element and field_assignments:`). -/
def fillMethodEntry (fname : String) (fels : List ElementLocator) : Option (String × String) :=
  let field_assignments :=
    joinStrSep "\n        "
      ((fels.filter (fun e => strStartsWith e.element_type "input")).map fillLine)
  match fels.find? (fun e => e.element_type = "submit") with
  | some s =>
    if field_assignments ≠ "" then
      some ("fill_" ++ fname,
        fillMethodBody fname field_assignments
          ("await self.page.locator(\"" ++ s.selector ++ "\").click()"))
    else none
  | none => none

/-- Model of `create_page_object` (generator.py lines 113-194); `none`
models an `IndexError` escaping from name synthesis. -/
def create_page_object (page : CrawlPage) : Option PageObject := do
  let name ← create_page_object_name page
  let sfn ← sanitize_name name
  let file_name := lowerStr sfn ++ ".py"
  let elements ← elementsOfPage page.elements
  let forms ← formsOfPage page.forms
  let baseMethods := [("__init__", initMethodBody), ("navigate", navigateMethodBody page.url)]
  let getters := elements.map (fun p => ("get_" ++ p.1, getterMethodBody p.1 p.2.selector))
  let fills := forms.filterMap (fun p => fillMethodEntry p.1 p.2)
  let methods := (baseMethods ++ getters ++ fills).foldl (fun d p => dictInsert d p.1 p.2) []
  some { name := name, file_name := file_name, url := page.url, title := page.title,
         elements := elements, forms := forms, methods := methods,
         imports := ["from playwright.sync_api import Page, Locator, expect"] }

/-- The pages selected for code generation by `generate_tests`
(generator.py lines 515-519): every recorded page without errors and with
status below 400. -/
def pages_for_generation (pages : List (String × CrawlPage)) : List CrawlPage :=
  (pages.map Prod.snd).filter (fun p => !p.has_errors && decide (p.status_code < 400))

/-! ## Concrete sites and configurations used to exercise the crawl loop -/

/-- A site in which two pages link the same child: the root links `a` and
`b`, and both `a` and `b` link `u`.  Unknown URLs behave as navigation
failures. -/
def dupWeb : Web := fun u =>
  if u = "http://h/" then { hrefs := ["http://h/a", "http://h/b"] } else
  if u = "http://h/a" then { hrefs := ["http://h/u"] } else
  if u = "http://h/b" then { hrefs := ["http://h/u"] } else
  if u = "http://h/u" then { hrefs := [] } else
  { has_errors := true, error_message := none }

/-- Sequential configuration for `dupWeb`: one page per batch, depth
budget 3, page budget 10, no exclude patterns. -/
def dupCfg : CrawlerConfig :=
  { depth := 3, max_pages := 10, concurrency := 1, exclude_match := fun _ => false }

/-- A three-page site used to overshoot the page budget: the root links two
children which are crawled as one batch of two. -/
def overWeb : Web := fun u =>
  if u = "http://h/" then { hrefs := ["http://h/a", "http://h/b"] } else
  if u = "http://h/a" then { hrefs := [] } else
  if u = "http://h/b" then { hrefs := [] } else
  { has_errors := true, error_message := none }

/-- Configuration for `overWeb`: batches of two, page budget 2. -/
def overCfg : CrawlerConfig :=
  { depth := 2, max_pages := 2, concurrency := 2, exclude_match := fun _ => false }

/-- A site on which a batch mixes two frontier depths (1 and 2), both of
whose pages link the same child `c`; `c` is then crawled twice at depths 2
and 3, and its depth-2 crawl enqueues `v`. -/
def depthWeb : Web := fun u =>
  if u = "http://h/" then { hrefs := ["http://h/p", "http://h/q", "http://h/s"] } else
  if u = "http://h/p" then { hrefs := ["http://h/t"] } else
  if u = "http://h/q" then { hrefs := [] } else
  if u = "http://h/s" then { hrefs := ["http://h/c"] } else
  if u = "http://h/t" then { hrefs := ["http://h/c"] } else
  if u = "http://h/c" then { hrefs := ["http://h/v"] } else
  if u = "http://h/v" then { hrefs := [] } else
  { has_errors := true, error_message := none }

/-- Configuration for `depthWeb`: batches of two, depth budget 3. -/
def depthCfg : CrawlerConfig :=
  { depth := 3, max_pages := 20, concurrency := 2, exclude_match := fun _ => false }

/-- A site exercising failures, excluded extensions, cross-origin links,
fragments and relative links in one crawl. -/
def mixWeb : Web := fun u =>
  if u = "http://h/" then
    { hrefs := ["http://h/err", "http://h/pic.PNG", "http://other/x",
                "http://h/frag#sec", "rel/sub", "", "http://h/dir/"] } else
  if u = "http://h/err" then { has_errors := true, error_message := some "timeout" } else
  if u = "http://h/frag" then { hrefs := [] } else
  if u = "http://h/rel/sub" then { hrefs := [] } else
  if u = "http://h/dir/" then { hrefs := [] } else
  { has_errors := true, error_message := none }

/-- Configuration for `mixWeb`. -/
def mixCfg : CrawlerConfig :=
  { depth := 2, max_pages := 10, concurrency := 3, exclude_match := fun _ => false }

/-- The element record that `extract_elements` produces for a match of the
selector `[role=button]` (written with quotes around `button` in the
source) carrying no `type`, `id` or `class` attribute and no text:
`element_type = selector.split("[")[0]` is the empty string, and the
visibility and clickability flags are set from the page.  This is a value
of the record type that reaches the generator. -/
def roleButtonElement : CrawlElement :=
  { selector := "[role=button]", element_type := "", text := some "",
    attributes := [("id", ""), ("class", ""), ("href", "")],
    is_clickable := true, is_visible := true }

/-- An error-free page containing `roleButtonElement`, eligible for code
generation (no errors, status 200). -/
def roleButtonPage : CrawlPage :=
  { url := "http://h/", title := "Home", elements := [roleButtonElement], forms := [] }

/-- A page whose only form holds a single visible password-typed field and
no submit button (the C9 scenario from the spec). -/
def pwOnlyPage : CrawlPage :=
  { url := "http://h/login", title := "Login",
    forms := [{ form_selector := "form:nth-of-type(1)",
                fields := [{ selector := "form:nth-of-type(1) #pw",
                             element_type := "input-password", text := none,
                             attributes := [("type", "password"), ("id", "pw")],
                             is_visible := true }],
                submit_button := none }] }

/-- A placeholder page object, used only as the default of `Option.getD`
in concrete instantiations. -/
def emptyPageObject : PageObject :=
  { name := "", file_name := "", url := "", title := "",
    elements := [], forms := [], methods := [], imports := [] }

/-- The part of the crawl-loop invariant relating records to their
parents: the root URL is visited and never pending, its record (if any)
has depth 0 and no parent, every recorded parent URL is itself a key of
`pages`, and every frontier entry with a parent refers to a recorded
page.  This holds at every state after the first batch. -/
def RootParentInv (url : String) (st : CrawlState) : Prop :=
  url ∈ st.visited_urls ∧
  (∀ e ∈ st.frontier, e.1 ≠ url) ∧
  (∀ r, st.pages.lookup url = some r → r.depth = 0 ∧ r.parent_url = none) ∧
  (∀ u p, st.pages.lookup u = some p →
    ∀ pu, p.parent_url = some pu → pu ∈ st.pages.map Prod.fst) ∧
  (∀ e ∈ st.frontier, ∀ pu, e.2.2 = some pu → pu ∈ st.pages.map Prod.fst)

/-! # Theorems

First the generic lemmas about the helper structures, then one theorem per
specification claim (with a witness where the theorem carries hypotheses,
and a counterexample where the claim fails on the code). -/

set_option maxRecDepth 100000

theorem lookup_cons_eq {α : Type} (k : String) (v : α) (l : List (String × α)) :
    List.lookup k ((k, v) :: l) = some v := by simp [List.lookup]

theorem lookup_cons_ne {α : Type} (k a : String) (v : α) (l : List (String × α)) (h : a ≠ k) :
    List.lookup a ((k, v) :: l) = List.lookup a l := by
  have hb : (a == k) = false := beq_eq_false_iff_ne.mpr h
  simp [List.lookup, hb]

theorem dictInsert_cons_eq {α : Type} (k0 : String) (v0 v : α) (rest : List (String × α)) :
    dictInsert ((k0, v0) :: rest) k0 v = (k0, v) :: rest := by
  simp [dictInsert]

theorem dictInsert_cons_ne {α : Type} (k0 k : String) (v0 v : α) (rest : List (String × α))
    (h : k0 ≠ k) : dictInsert ((k0, v0) :: rest) k v = (k0, v0) :: dictInsert rest k v := by
  simp [dictInsert, h]

theorem dictInsert_lookup_self {α : Type} (d : List (String × α)) (k : String) (v : α) :
    (dictInsert d k v).lookup k = some v := by
  induction d with
  | nil => simp [dictInsert, List.lookup]
  | cons kv rest ih =>
    obtain ⟨k0, v0⟩ := kv
    by_cases h : k0 = k
    · subst h; rw [dictInsert_cons_eq, lookup_cons_eq]
    · rw [dictInsert_cons_ne _ _ _ _ _ h, lookup_cons_ne _ _ _ _ (fun hh => h hh.symm)]
      exact ih

theorem dictInsert_lookup_ne {α : Type} (d : List (String × α)) (k u : String) (v : α)
    (h : u ≠ k) : (dictInsert d k v).lookup u = d.lookup u := by
  induction d with
  | nil => simp [dictInsert, List.lookup, beq_eq_false_iff_ne.mpr h]
  | cons kv rest ih =>
    obtain ⟨k0, v0⟩ := kv
    by_cases hk : k0 = k
    · subst hk
      rw [dictInsert_cons_eq]
      rw [lookup_cons_ne _ _ _ _ h, lookup_cons_ne _ _ _ _ h]
    · rw [dictInsert_cons_ne _ _ _ _ _ hk]
      by_cases hu : u = k0
      · subst hu; rw [lookup_cons_eq, lookup_cons_eq]
      · rw [lookup_cons_ne _ _ _ _ hu, lookup_cons_ne _ _ _ _ hu]
        exact ih

theorem dictInsert_length_le {α : Type} (d : List (String × α)) (k : String) (v : α) :
    (dictInsert d k v).length ≤ d.length + 1 := by
  induction d with
  | nil => simp [dictInsert]
  | cons kv rest ih =>
    obtain ⟨k0, v0⟩ := kv
    by_cases h : k0 = k
    · subst h; rw [dictInsert_cons_eq]; simp
    · rw [dictInsert_cons_ne _ _ _ _ _ h]
      simpa using Nat.succ_le_succ ih

theorem dictInsert_mem_keys_iff {α : Type} (d : List (String × α)) (k u : String) (v : α) :
    u ∈ (dictInsert d k v).map Prod.fst ↔ u ∈ d.map Prod.fst ∨ u = k := by
  induction d with
  | nil => simp [dictInsert]
  | cons kv rest ih =>
    obtain ⟨k0, v0⟩ := kv
    by_cases h : k0 = k
    · subst h; rw [dictInsert_cons_eq]; simp; tauto
    · rw [dictInsert_cons_ne _ _ _ _ _ h]
      simp only [List.map_cons, List.mem_cons, ih]
      tauto

theorem dictInsert_keys_nodup {α : Type} (d : List (String × α)) (k : String) (v : α)
    (h : (d.map Prod.fst).Nodup) : ((dictInsert d k v).map Prod.fst).Nodup := by
  induction d with
  | nil => simp [dictInsert]
  | cons kv rest ih =>
    obtain ⟨k0, v0⟩ := kv
    simp only [List.map_cons, List.nodup_cons] at h
    by_cases hk : k0 = k
    · subst hk
      rw [dictInsert_cons_eq]
      simp only [List.map_cons, List.nodup_cons]
      exact ⟨h.1, h.2⟩
    · rw [dictInsert_cons_ne _ _ _ _ _ hk]
      simp only [List.map_cons, List.nodup_cons]
      refine ⟨fun hm => ?_, ih h.2⟩
      rcases (dictInsert_mem_keys_iff rest k k0 v).mp hm with hmem | heq
      · exact h.1 hmem
      · exact hk heq

theorem mem_of_mem_dictInsert_keys {α : Type} (d : List (String × α)) (k u : String) (v : α)
    (h : u ∈ d.map Prod.fst) : u ∈ (dictInsert d k v).map Prod.fst :=
  (dictInsert_mem_keys_iff d k u v).mpr (Or.inl h)

theorem setInsert_mem_iff (s : List String) (x u : String) :
    u ∈ setInsert s x ↔ u ∈ s ∨ u = x := by
  unfold setInsert
  by_cases h : x ∈ s
  · simp only [if_pos h]
    constructor
    · exact fun hm => Or.inl hm
    · rintro (hm | rfl)
      · exact hm
      · exact h
  · simp [if_neg h]

theorem setInsert_subset (s : List String) (x u : String) (h : u ∈ s) :
    u ∈ setInsert s x := (setInsert_mem_iff s x u).mpr (Or.inl h)

theorem joinStrSep_ne_empty (sep : String) (l : List String)
    (hne : l ≠ []) (hall : ∀ s ∈ l, s ≠ "") : joinStrSep sep l ≠ "" := by
  match l with
  | [] => exact absurd rfl hne
  | [a] => exact hall a (by simp)
  | a :: b :: rest =>
    have ha : a ≠ "" := hall a (by simp)
    intro hcontra
    apply ha
    have : (a ++ sep ++ joinStrSep sep (b :: rest)).data = "".data := by
      rw [← hcontra]; rfl
    simp only [String.data_append] at this
    cases hd : a.data with
    | nil => cases a; simp_all
    | cons c cs => rw [hd] at this; simp at this

/-- The crawl loop result is one of the trace states. -/
theorem crawl_loop_mem_trace (cfg : CrawlerConfig) (web : Web) :
    ∀ (fuel : Nat) (st : CrawlState),
      crawl_loop cfg web fuel st ∈ crawl_trace cfg web fuel st := by
  intro fuel
  induction fuel with
  | zero => intro st; simp [crawl_loop, crawl_trace]
  | succ n ih =>
    intro st
    by_cases h : crawl_continues cfg st
    · simp only [crawl_loop, crawl_trace, if_pos h, List.mem_cons]
      exact Or.inr (ih _)
    · simp [crawl_loop, crawl_trace, if_neg h]

/-! ## C5 — generator totality fails on a typeless element (code bug) -/

/-- C5: the spec asserts that the generator always returns its file list and
that name synthesis is total on every element a dataset can contain.  The
code violates this: for an element whose text, id and class are empty and
whose `element_type` is the empty string (exactly what `extract_elements`
produces for a `[role=button]` match without attributes, since
`selector.split("[")[0] = ""`), the derived name is empty and
`sanitize_name` evaluates `name[0]`, raising `IndexError`; the exception
propagates out of `generate_tests`.  The page holding the element is
eligible for generation, so the crash is reachable from a dataset. -/
theorem element_name_synthesis_fails :
    create_element_name roleButtonElement = none ∧
    create_page_object roleButtonPage = none ∧
    roleButtonPage ∈ pages_for_generation [("http://h/", roleButtonPage)] :=
  ⟨rfl, rfl, by decide⟩

/-! ## C8 — page-object name synthesis -/

/-- C8: page-object name synthesis follows the spec rule — the title when
present (independently of every other field), else the last nonempty path
segment of the URL, else `HomePage`; sanitised, split, title-cased,
concatenated, and suffixed with `Page`.  In particular every page titled
`Contact Us` yields `ContactUsPage`. -/
theorem page_object_name_rule :
    (∀ p : CrawlPage, p.title = "Contact Us" → create_page_object_name p = some "ContactUsPage") ∧
    (∀ p : CrawlPage, p.title = "" → p.url = "http://h/" → create_page_object_name p = some "HomePage") ∧
    (∀ p : CrawlPage, p.title = "" → p.url = "http://shop.example/products/item-one" →
      create_page_object_name p = some "ItemOnePage") := by
  refine ⟨fun p h => ?_, fun p h h2 => ?_, fun p h h2 => ?_⟩
  · unfold create_page_object_name; rw [h]; rfl
  · unfold create_page_object_name; rw [h, h2]; rfl
  · unfold create_page_object_name; rw [h, h2]; rfl

/-- Witness for C8 at concrete pages. -/
theorem page_object_name_rule_witness :
    create_page_object_name { url := "http://x/", title := "Contact Us" } = some "ContactUsPage" ∧
    create_page_object_name { url := "http://h/", title := "" } = some "HomePage" ∧
    create_page_object_name { url := "http://shop.example/products/item-one", title := "" } =
      some "ItemOnePage" :=
  ⟨page_object_name_rule.1 _ rfl, page_object_name_rule.2.1 _ rfl rfl,
   page_object_name_rule.2.2 _ rfl rfl⟩

/-! ## Counterexamples refuting the claims C1, C2, C3, C4, C6, C7 as stated -/

/-- C1 counterexample: with page budget 2 and concurrency 2, the crawl of
`overWeb` returns a dataset holding 3 pages — the budget bound fails both
during and after the crawl, because the loop admits a whole batch after
checking the budget once. -/
theorem crawl_exceeds_max_pages_cex :
    overCfg.max_pages = 2 ∧
    (crawl_website overCfg overWeb "http://h/" 50).pages.length = 3 ∧
    ¬ ((crawl_website overCfg overWeb "http://h/" 50).pages.length ≤ overCfg.max_pages) :=
  ⟨rfl, rfl, by decide⟩

/-- C2 counterexample: on `dupWeb` (sequential crawl), after `u` is crawled
once, the reachable state number 4 of the trace has `u` both in
`visited_urls` and still pending in the frontier — the admission check
never tests frontier membership, so `u` was enqueued twice. -/
theorem visited_frontier_overlap_cex :
    "http://h/u" ∈
      ((crawl_trace dupCfg dupWeb 50 (init_state "http://h/")).getD 4
        (init_state "http://h/")).visited_urls ∧
    "http://h/u" ∈
      (((crawl_trace dupCfg dupWeb 50 (init_state "http://h/")).getD 4
        (init_state "http://h/")).frontier.map (fun e => e.1)) :=
  ⟨by decide, by decide⟩

/-- C3 counterexample: on `dupWeb` the URL `u` is crawled twice; the record
produced by the first crawl (parent `a`) is visible in trace state 4, but
the completed dataset stores the record of the second crawl (parent `b`) —
the merge overwrites, so the last writer wins, not the first. -/
theorem first_writer_overwritten_cex :
    ((((crawl_trace dupCfg dupWeb 50 (init_state "http://h/")).getD 4
        (init_state "http://h/")).pages.lookup "http://h/u").map CrawlPage.parent_url =
      some (some "http://h/a")) ∧
    (((crawl_website dupCfg dupWeb "http://h/" 50).pages.lookup "http://h/u").map
        CrawlPage.parent_url = some (some "http://h/b")) ∧
    (crawl_website dupCfg dupWeb "http://h/" 50).pages.lookup "http://h/u" ≠
      some (crawl_page dupWeb "http://h/u" 2 (some "http://h/a")) :=
  ⟨rfl, rfl, by decide⟩

/-- C4 counterexample: from a page on `http://example.com`, the href
`http://example.com.evil.org/x` is returned by link extraction — the
same-origin test is a textual prefix test on `scheme://host`, which admits
this cross-origin host — although its host differs from the page host. -/
theorem cross_origin_link_cex :
    extract_links ["http://example.com.evil.org/x"] (pageBase "http://example.com") =
      ["http://example.com.evil.org/x"] ∧
    (urlsplitUrl "http://example.com.evil.org/x").netloc ≠
      (urlsplitUrl "http://example.com").netloc :=
  ⟨rfl, by decide⟩

/-- C7 counterexample: canonicalisation is not idempotent on every URL
under the `urllib.parse` semantics this code runs on: the netloc-free URL
`/////x` canonicalises to `///x`, which canonicalises further to `/x`. -/
theorem canon_not_idempotent_cex :
    canonUrl (canonUrl "/////x") ≠ canonUrl "/////x" ∧
    canonUrl "/////x" = "///x" ∧ canonUrl "///x" = "/x" :=
  ⟨by decide, rfl, rfl⟩

/-- C6 counterexample: in the completed crawl of `depthWeb`, page `v` has
depth 3 with parent `c`, but the stored record of `c` (overwritten by a
second crawl of `c` at depth 3) also has depth 3 — the invariant
`depth = pages[parentUrl].depth + 1` fails. -/
theorem depth_parent_mismatch_cex :
    ¬ (∀ (u : String) (p : CrawlPage) (pu : String) (q : CrawlPage),
        (crawl_website depthCfg depthWeb "http://h/" 50).pages.lookup u = some p →
        p.parent_url = some pu →
        (crawl_website depthCfg depthWeb "http://h/" 50).pages.lookup pu = some q →
        p.depth = q.depth + 1) := by
  intro h
  cases hv : (crawl_website depthCfg depthWeb "http://h/" 50).pages.lookup "http://h/v" with
  | none => exact absurd hv (by decide)
  | some p =>
    cases hc : (crawl_website depthCfg depthWeb "http://h/" 50).pages.lookup "http://h/c" with
    | none => exact absurd hc (by decide)
    | some q =>
      have h1 : ((crawl_website depthCfg depthWeb "http://h/" 50).pages.lookup
          "http://h/v").map CrawlPage.parent_url = some (some "http://h/c") := rfl
      rw [hv] at h1
      simp only [Option.map_some', Option.some.injEq] at h1
      have h2 : ((crawl_website depthCfg depthWeb "http://h/" 50).pages.lookup
          "http://h/v").map CrawlPage.depth = some 3 := rfl
      rw [hv] at h2
      simp only [Option.map_some', Option.some.injEq] at h2
      have h3 : ((crawl_website depthCfg depthWeb "http://h/" 50).pages.lookup
          "http://h/c").map CrawlPage.depth = some 3 := rfl
      rw [hc] at h3
      simp only [Option.map_some', Option.some.injEq] at h3
      have := h "http://h/v" p "http://h/c" q hv h1 hc
      omega

/-! ## C3 amended — the merge step is last-writer-wins -/

/-- C3 amended: recording a crawled page stores that record under its URL
unconditionally — an existing entry for the same URL is overwritten (last
writer wins), and every other entry is untouched.  (The claim as stated,
first writer wins, is refuted by `first_writer_overwritten_cex`.) -/
theorem merge_last_writer_wins (cfg : CrawlerConfig) (st : CrawlState) (page : CrawlPage) :
    ((merge_page cfg st page).pages.lookup page.url = some page) ∧
    (∀ u, u ≠ page.url → (merge_page cfg st page).pages.lookup u = st.pages.lookup u) := by
  unfold merge_page
  exact ⟨dictInsert_lookup_self _ _ _, fun u h => dictInsert_lookup_ne _ _ _ _ h⟩

/-- Witness for C3 amended at a concrete merge. -/
theorem merge_last_writer_wins_witness :
    ((merge_page dupCfg (init_state "http://h/")
        (crawl_page dupWeb "http://h/u" 2 (some "http://h/a"))).pages.lookup "http://h/u" =
      some (crawl_page dupWeb "http://h/u" 2 (some "http://h/a"))) ∧
    ((merge_page dupCfg (init_state "http://h/")
        (crawl_page dupWeb "http://h/u" 2 (some "http://h/a"))).pages.lookup "http://h/x" =
      (init_state "http://h/").pages.lookup "http://h/x") :=
  ⟨(merge_last_writer_wins dupCfg (init_state "http://h/")
      (crawl_page dupWeb "http://h/u" 2 (some "http://h/a"))).1,
   (merge_last_writer_wins dupCfg (init_state "http://h/")
      (crawl_page dupWeb "http://h/u" 2 (some "http://h/a"))).2 "http://h/x" (by decide)⟩

/-! ## C1 amended — the page budget is respected up to one batch of slack -/

theorem merge_page_pages_length (cfg : CrawlerConfig) (st : CrawlState) (page : CrawlPage) :
    (merge_page cfg st page).pages.length ≤ st.pages.length + 1 := by
  unfold merge_page
  exact dictInsert_length_le _ _ _

theorem foldl_merge_pages_length (cfg : CrawlerConfig) (recs : List CrawlPage) :
    ∀ st : CrawlState,
      (recs.foldl (merge_page cfg) st).pages.length ≤ st.pages.length + recs.length := by
  induction recs with
  | nil => intro st; simp
  | cons r rs ih =>
    intro st
    calc ((r :: rs).foldl (merge_page cfg) st).pages.length
        = (rs.foldl (merge_page cfg) (merge_page cfg st r)).pages.length := by rfl
      _ ≤ (merge_page cfg st r).pages.length + rs.length := ih _
      _ ≤ (st.pages.length + 1) + rs.length :=
          Nat.add_le_add_right (merge_page_pages_length cfg st r) _
      _ = st.pages.length + (r :: rs).length := by simp; omega

theorem run_batch_pages_length (cfg : CrawlerConfig) (web : Web) (st : CrawlState) :
    (run_batch cfg web st).pages.length ≤ st.pages.length + cfg.concurrency := by
  unfold run_batch
  have h1 := foldl_merge_pages_length cfg
    ((st.frontier.take cfg.concurrency).map (fun e => crawl_page web e.1 e.2.1 e.2.2))
    { st with frontier := st.frontier.drop cfg.concurrency }
  have h2 : ((st.frontier.take cfg.concurrency).map
      (fun e => crawl_page web e.1 e.2.1 e.2.2)).length ≤ cfg.concurrency := by
    rw [List.length_map, List.length_take]
    exact Nat.min_le_left _ _
  exact le_trans h1 (Nat.add_le_add_left h2 _)

theorem crawl_continues_lt (cfg : CrawlerConfig) (st : CrawlState)
    (h : crawl_continues cfg st = true) : st.pages.length < cfg.max_pages := by
  unfold crawl_continues at h
  simp only [Bool.and_eq_true, decide_eq_true_eq] at h
  exact h.2

theorem crawl_trace_pages_bounded_aux (cfg : CrawlerConfig) (web : Web) :
    ∀ (fuel : Nat) (st : CrawlState),
      st.pages.length ≤ cfg.max_pages + cfg.concurrency - 1 →
      ∀ s ∈ crawl_trace cfg web fuel st,
        s.pages.length ≤ cfg.max_pages + cfg.concurrency - 1 := by
  intro fuel
  induction fuel with
  | zero =>
    intro st hst s hs
    simp only [crawl_trace, List.mem_singleton] at hs
    subst hs; exact hst
  | succ n ih =>
    intro st hst s hs
    by_cases h : crawl_continues cfg st
    · rw [crawl_trace, if_pos h] at hs
      rcases List.mem_cons.mp hs with rfl | hs2
      · exact hst
      · refine ih (run_batch cfg web st) ?_ s hs2
        have hlt := crawl_continues_lt cfg st h
        have hb := run_batch_pages_length cfg web st
        omega
    · rw [crawl_trace, if_neg h] at hs
      simp only [List.mem_singleton] at hs
      subst hs; exact hst

/-- C1 amended: the number of recorded pages never exceeds
`maxPages + concurrency - 1`, at every point during the crawl (every state
of the trace) and at return.  The bound `maxPages` itself can be exceeded
by up to one batch, as `crawl_exceeds_max_pages_cex` shows, because the
loop checks the budget once per batch and then merges the whole batch. -/
theorem crawl_pages_bounded (cfg : CrawlerConfig) (web : Web) (url : String) (fuel : Nat) :
    (∀ st ∈ crawl_trace cfg web fuel (init_state url),
        st.pages.length ≤ cfg.max_pages + cfg.concurrency - 1) ∧
    (crawl_website cfg web url fuel).pages.length ≤ cfg.max_pages + cfg.concurrency - 1 := by
  have h0 : (init_state url).pages.length ≤ cfg.max_pages + cfg.concurrency - 1 := by
    simp [init_state]
  refine ⟨crawl_trace_pages_bounded_aux cfg web fuel (init_state url) h0, ?_⟩
  exact crawl_trace_pages_bounded_aux cfg web fuel (init_state url) h0 _
    (crawl_loop_mem_trace cfg web fuel (init_state url))

/-- Witness for C1 amended on the overshoot crawl: the bound
`maxPages + concurrency - 1 = 3` holds at the returned state, which is a
member of the trace. -/
theorem crawl_pages_bounded_witness :
    (crawl_website overCfg overWeb "http://h/" 50).pages.length ≤
      overCfg.max_pages + overCfg.concurrency - 1 :=
  (crawl_pages_bounded overCfg overWeb "http://h/" 50).1
    (crawl_website overCfg overWeb "http://h/" 50)
    (crawl_loop_mem_trace overCfg overWeb 50 (init_state "http://h/"))

/-! ## C2 amended — frontier admission rule -/

theorem contains_eq_false_iff (L : List String) (x : String) :
    L.contains x = false ↔ x ∉ L := by
  constructor
  · intro h hm
    have h2 : L.contains x = true := List.elem_iff.mpr hm
    rw [h] at h2
    cases h2
  · intro h
    cases hcc : L.contains x with
    | false => rfl
    | true => exact absurd (List.elem_iff.mp hcc) h

theorem merge_page_frontier_eq (cfg : CrawlerConfig) (st : CrawlState) (page : CrawlPage) :
    (merge_page cfg st page).frontier =
      (if page.depth < cfg.depth ∧ page.has_errors = false then
        st.frontier ++
          ((page.links.filter (fun l =>
              !((setInsert st.visited_urls page.url).contains l) &&
              !((st.failed_urls.map Prod.fst).contains l) &&
              is_url_allowed cfg l)).map
            (fun l => (l, page.depth + 1, some page.url)))
      else st.frontier) := rfl

/-- Membership in the frontier after one merge step: an entry is either an
old entry, or a link of the merged page admitted by the checks the code
actually performs — not visited (after marking the page itself visited),
not failed, allowed by the URL filter — at depth `page.depth + 1` with the
page as parent, and only when the page is within the depth bound and
error-free. -/
theorem mem_frontier_merge_iff (cfg : CrawlerConfig) (st : CrawlState) (page : CrawlPage)
    (e : String × Nat × Option String) :
    e ∈ (merge_page cfg st page).frontier ↔
      e ∈ st.frontier ∨
      (page.depth < cfg.depth ∧ page.has_errors = false ∧ e.1 ∈ page.links ∧
       e.1 ∉ setInsert st.visited_urls page.url ∧
       e.1 ∉ st.failed_urls.map Prod.fst ∧
       is_url_allowed cfg e.1 = true ∧ e.2.1 = page.depth + 1 ∧ e.2.2 = some page.url) := by
  rw [merge_page_frontier_eq]
  by_cases hc : page.depth < cfg.depth ∧ page.has_errors = false
  · rw [if_pos hc, List.mem_append]
    constructor
    · rintro (h | h)
      · exact Or.inl h
      · obtain ⟨l, hlf, rfl⟩ := List.mem_map.mp h
        obtain ⟨hl, hcond⟩ := List.mem_filter.mp hlf
        simp only [Bool.and_eq_true, Bool.not_eq_true'] at hcond
        exact Or.inr ⟨hc.1, hc.2, hl, (contains_eq_false_iff _ _).mp hcond.1.1,
          (contains_eq_false_iff _ _).mp hcond.1.2, hcond.2, rfl, rfl⟩
    · rintro (h | ⟨h1, h2, h3, h4, h5, h6, h7, h8⟩)
      · exact Or.inl h
      · right
        refine List.mem_map.mpr ⟨e.1, List.mem_filter.mpr ⟨h3, ?_⟩, ?_⟩
        · simp only [Bool.and_eq_true, Bool.not_eq_true']
          exact ⟨⟨(contains_eq_false_iff _ _).mpr h4, (contains_eq_false_iff _ _).mpr h5⟩, h6⟩
        · obtain ⟨e1, e2, e3⟩ := e
          simp only at h7 h8
          rw [h7, h8]
  · rw [if_neg hc]
    constructor
    · exact fun h => Or.inl h
    · rintro (h | ⟨h1, h2, _⟩)
      · exact h
      · exact absurd ⟨h1, h2⟩ hc

/-- C2 amended: an outbound link is admitted to the frontier exactly when
it is not already visited, not already failed, and passes the URL filter,
with the depth bound checked on the expanding page — there is no check
against entries already pending in the frontier, and consequently (see
`visited_frontier_overlap_cex`) a URL can be in `visitedUrls` and in the
frontier at the same time. -/
theorem frontier_admission_characterization (cfg : CrawlerConfig) (st : CrawlState)
    (page : CrawlPage) (e : String × Nat × Option String) :
    e ∈ (merge_page cfg st page).frontier ↔
      e ∈ st.frontier ∨
      (page.depth < cfg.depth ∧ page.has_errors = false ∧ e.1 ∈ page.links ∧
       e.1 ∉ setInsert st.visited_urls page.url ∧
       e.1 ∉ st.failed_urls.map Prod.fst ∧
       is_url_allowed cfg e.1 = true ∧ e.2.1 = page.depth + 1 ∧ e.2.2 = some page.url) :=
  mem_frontier_merge_iff cfg st page e

/-! ## C10 — every crawled record is recorded, failed URLs included -/

theorem merge_keys_mono (cfg : CrawlerConfig) (st : CrawlState) (page : CrawlPage)
    (u : String) (h : u ∈ st.pages.map Prod.fst) :
    u ∈ (merge_page cfg st page).pages.map Prod.fst := by
  unfold merge_page
  exact mem_of_mem_dictInsert_keys _ _ _ _ h

theorem merge_failed_sub (cfg : CrawlerConfig) (st : CrawlState) (page : CrawlPage)
    (hinv : ∀ u ∈ st.failed_urls.map Prod.fst, u ∈ st.pages.map Prod.fst) :
    ∀ u ∈ (merge_page cfg st page).failed_urls.map Prod.fst,
      u ∈ (merge_page cfg st page).pages.map Prod.fst := by
  intro u hu
  have hpages : (merge_page cfg st page).pages = dictInsert st.pages page.url page := rfl
  have hfailed : (merge_page cfg st page).failed_urls =
      (if page.has_errors then
        dictInsert st.failed_urls page.url (page.error_message.getD "Unknown error")
      else st.failed_urls) := rfl
  rw [hfailed] at hu
  rw [hpages]
  by_cases he : page.has_errors
  · rw [if_pos he] at hu
    rcases (dictInsert_mem_keys_iff _ _ _ _).mp hu with hold | rfl
    · exact mem_of_mem_dictInsert_keys _ _ _ _ (hinv u hold)
    · exact (dictInsert_mem_keys_iff _ _ _ _).mpr (Or.inr rfl)
  · rw [if_neg he] at hu
    exact mem_of_mem_dictInsert_keys _ _ _ _ (hinv u hu)

theorem foldl_merge_failed_sub (cfg : CrawlerConfig) (recs : List CrawlPage) :
    ∀ st : CrawlState,
      (∀ u ∈ st.failed_urls.map Prod.fst, u ∈ st.pages.map Prod.fst) →
      ∀ u ∈ (recs.foldl (merge_page cfg) st).failed_urls.map Prod.fst,
        u ∈ (recs.foldl (merge_page cfg) st).pages.map Prod.fst := by
  induction recs with
  | nil => intro st h; exact h
  | cons r rs ih =>
    intro st h
    exact ih (merge_page cfg st r) (merge_failed_sub cfg st r h)

theorem crawl_loop_failed_sub (cfg : CrawlerConfig) (web : Web) :
    ∀ (fuel : Nat) (st : CrawlState),
      (∀ u ∈ st.failed_urls.map Prod.fst, u ∈ st.pages.map Prod.fst) →
      ∀ u ∈ (crawl_loop cfg web fuel st).failed_urls.map Prod.fst,
        u ∈ (crawl_loop cfg web fuel st).pages.map Prod.fst := by
  intro fuel
  induction fuel with
  | zero => intro st h; exact h
  | succ n ih =>
    intro st h
    by_cases hc : crawl_continues cfg st
    · rw [crawl_loop, if_pos hc]
      refine ih (run_batch cfg web st) ?_
      unfold run_batch
      exact foldl_merge_failed_sub cfg _ _ h
    · rw [crawl_loop, if_neg hc]
      exact h

/-- C10: the merge step inserts every crawled record into `dataset.pages`
regardless of its error flag (so error pages consume the page budget
exactly like successful ones), and consequently every URL recorded in
`failedUrls` is also a key of `dataset.pages` at completion. -/
theorem error_pages_recorded :
    (∀ (cfg : CrawlerConfig) (st : CrawlState) (page : CrawlPage),
        page.url ∈ (merge_page cfg st page).pages.map Prod.fst) ∧
    (∀ (cfg : CrawlerConfig) (web : Web) (url : String) (fuel : Nat) (u : String),
        u ∈ (crawl_website cfg web url fuel).failed_urls.map Prod.fst →
        u ∈ (crawl_website cfg web url fuel).pages.map Prod.fst) := by
  constructor
  · intro cfg st page
    unfold merge_page
    exact (dictInsert_mem_keys_iff _ _ _ _).mpr (Or.inr rfl)
  · intro cfg web url fuel u hu
    refine crawl_loop_failed_sub cfg web fuel (init_state url) ?_ u hu
    intro x hx
    simp [init_state] at hx

/-- Witness for C10 on the mixed crawl: the URL that failed with a timeout
is a key of `dataset.pages` as well as of `failedUrls`. -/
theorem error_pages_recorded_witness :
    "http://h/err" ∈ (crawl_website mixCfg mixWeb "http://h/" 50).pages.map Prod.fst :=
  error_pages_recorded.2 mixCfg mixWeb "http://h/" 50 "http://h/err" (by decide)

/-! ## C6 amended — parent bookkeeping of the crawl -/

theorem crawl_page_fields (web : Web) (u : String) (d : Nat) (par : Option String) :
    (crawl_page web u d par).url = u ∧ (crawl_page web u d par).depth = d ∧
      (crawl_page web u d par).parent_url = par := by
  by_cases h : (web u).has_errors = true <;> simp [crawl_page, h]

theorem merge_RPI (cfg : CrawlerConfig) (url : String) (st : CrawlState) (page : CrawlPage)
    (hinv : RootParentInv url st) (hu : page.url ≠ url)
    (hp : ∀ pu, page.parent_url = some pu → pu ∈ st.pages.map Prod.fst) :
    RootParentInv url (merge_page cfg st page) := by
  obtain ⟨hv, hf, hr, hpp, hfp⟩ := hinv
  have hpagese : (merge_page cfg st page).pages = dictInsert st.pages page.url page := rfl
  have hvise : (merge_page cfg st page).visited_urls = setInsert st.visited_urls page.url := rfl
  refine ⟨?_, ?_, ?_, ?_, ?_⟩
  · rw [hvise]; exact setInsert_subset _ _ _ hv
  · intro e he
    rcases (mem_frontier_merge_iff cfg st page e).mp he with hold | hnew
    · exact hf e hold
    · intro heq
      exact hnew.2.2.2.1 (heq ▸ setInsert_subset _ page.url url hv)
  · intro r hrr
    rw [hpagese, dictInsert_lookup_ne _ _ _ _ (fun hh => hu hh.symm)] at hrr
    exact hr r hrr
  · intro u p hup pu hpar
    rw [hpagese] at hup ⊢
    by_cases hcase : u = page.url
    · subst hcase
      rw [dictInsert_lookup_self] at hup
      obtain rfl : page = p := Option.some.inj hup
      exact mem_of_mem_dictInsert_keys _ _ _ _ (hp pu hpar)
    · rw [dictInsert_lookup_ne _ _ _ _ hcase] at hup
      exact mem_of_mem_dictInsert_keys _ _ _ _ (hpp u p hup pu hpar)
  · intro e he pu hpar
    rw [hpagese]
    rcases (mem_frontier_merge_iff cfg st page e).mp he with hold | hnew
    · exact mem_of_mem_dictInsert_keys _ _ _ _ (hfp e hold pu hpar)
    · have hpu : pu = page.url := by
        rw [hnew.2.2.2.2.2.2.2] at hpar
        exact (Option.some.inj hpar).symm
      subst hpu
      exact (dictInsert_mem_keys_iff _ _ _ _).mpr (Or.inr rfl)

theorem foldl_merge_RPI (cfg : CrawlerConfig) (url : String) (recs : List CrawlPage) :
    ∀ st : CrawlState, RootParentInv url st →
      (∀ r ∈ recs, r.url ≠ url ∧
        ∀ pu, r.parent_url = some pu → pu ∈ st.pages.map Prod.fst) →
      RootParentInv url (recs.foldl (merge_page cfg) st) := by
  induction recs with
  | nil => intro st h _; exact h
  | cons r rs ih =>
    intro st h hrecs
    refine ih (merge_page cfg st r)
      (merge_RPI cfg url st r h (hrecs r (by simp)).1 (hrecs r (by simp)).2) ?_
    intro r2 hr2
    refine ⟨(hrecs r2 (List.mem_cons_of_mem r hr2)).1, fun pu hpu => ?_⟩
    exact merge_keys_mono cfg st r pu ((hrecs r2 (List.mem_cons_of_mem r hr2)).2 pu hpu)

theorem drop_frontier_RPI (url : String) (st : CrawlState) (n : Nat)
    (h : RootParentInv url st) :
    RootParentInv url { st with frontier := st.frontier.drop n } := by
  obtain ⟨hv, hf, hr, hpp, hfp⟩ := h
  exact ⟨hv, fun e he => hf e (List.mem_of_mem_drop he), hr, hpp,
    fun e he => hfp e (List.mem_of_mem_drop he)⟩

theorem run_batch_RPI (cfg : CrawlerConfig) (web : Web) (url : String) (st : CrawlState)
    (h : RootParentInv url st) : RootParentInv url (run_batch cfg web st) := by
  unfold run_batch
  refine foldl_merge_RPI cfg url _ _ (drop_frontier_RPI url st cfg.concurrency h) ?_
  intro r hr
  obtain ⟨e, he, rfl⟩ := List.mem_map.mp hr
  have hef : e ∈ st.frontier := List.mem_of_mem_take he
  obtain ⟨hurl, _, hpar⟩ := crawl_page_fields web e.1 e.2.1 e.2.2
  constructor
  · rw [hurl]; exact h.2.1 e hef
  · intro pu hpu
    rw [hpar] at hpu
    exact h.2.2.2.2 e hef pu hpu

theorem run_batch_init_RPI (cfg : CrawlerConfig) (web : Web) (url : String)
    (hc : 1 ≤ cfg.concurrency) :
    RootParentInv url (run_batch cfg web (init_state url)) := by
  have hb : (init_state url).frontier.take cfg.concurrency = [(url, 0, none)] :=
    List.take_of_length_le (by simpa [init_state] using hc)
  have hd : (init_state url).frontier.drop cfg.concurrency = [] :=
    List.drop_eq_nil_of_le (by simpa [init_state] using hc)
  have hrb : run_batch cfg web (init_state url) =
      merge_page cfg { init_state url with frontier := [] }
        (crawl_page web url 0 none) := by
    unfold run_batch
    rw [hb, hd]
    rfl
  rw [hrb]
  set st0 : CrawlState := { init_state url with frontier := [] } with hst0
  set rec := crawl_page web url 0 none with hrec
  obtain ⟨hurl, hdep, hpar⟩ := crawl_page_fields web url 0 none
  have hpages : (merge_page cfg st0 rec).pages = dictInsert st0.pages rec.url rec := rfl
  refine ⟨?_, ?_, ?_, ?_, ?_⟩
  · show url ∈ setInsert st0.visited_urls rec.url
    rw [hurl]
    exact (setInsert_mem_iff _ _ _).mpr (Or.inr rfl)
  · intro e he
    rcases (mem_frontier_merge_iff cfg st0 rec e).mp he with hold | hnew
    · simp [hst0, init_state] at hold
    · intro heq
      apply hnew.2.2.2.1
      rw [heq, ← hurl]
      exact (setInsert_mem_iff _ _ _).mpr (Or.inr rfl)
  · intro r hrr
    rw [hpages, hurl] at hrr
    have : st0.pages = [] := rfl
    rw [this] at hrr
    rw [show dictInsert ([] : List (String × CrawlPage)) url rec = [(url, rec)] from rfl] at hrr
    rw [lookup_cons_eq] at hrr
    obtain rfl : rec = r := Option.some.inj hrr
    exact ⟨hdep, hpar⟩
  · intro u p hup pu hpu
    rw [hpages, hurl] at hup
    have h0 : st0.pages = [] := rfl
    rw [h0, show dictInsert ([] : List (String × CrawlPage)) url rec = [(url, rec)] from rfl] at hup
    by_cases hcase : u = url
    · subst hcase
      rw [lookup_cons_eq] at hup
      obtain rfl : rec = p := Option.some.inj hup
      rw [hpar] at hpu
      cases hpu
    · rw [lookup_cons_ne _ _ _ _ hcase] at hup
      simp [List.lookup] at hup
  · intro e he pu hpu
    rcases (mem_frontier_merge_iff cfg st0 rec e).mp he with hold | hnew
    · simp [hst0, init_state] at hold
    · have : pu = rec.url := by
        rw [hnew.2.2.2.2.2.2.2] at hpu
        exact (Option.some.inj hpu).symm
      subst this
      rw [hpages]
      exact (dictInsert_mem_keys_iff _ _ _ _).mpr (Or.inr rfl)

theorem crawl_loop_K (cfg : CrawlerConfig) (web : Web) (url : String)
    (hc : 1 ≤ cfg.concurrency) :
    ∀ (fuel : Nat) (st : CrawlState),
      (st = init_state url ∨ RootParentInv url st) →
      (crawl_loop cfg web fuel st = init_state url ∨
        RootParentInv url (crawl_loop cfg web fuel st)) := by
  intro fuel
  induction fuel with
  | zero => intro st h; exact h
  | succ n ih =>
    intro st h
    by_cases hcont : crawl_continues cfg st
    · rw [crawl_loop, if_pos hcont]
      refine ih (run_batch cfg web st) ?_
      rcases h with rfl | hinv
      · exact Or.inr (run_batch_init_RPI cfg web url hc)
      · exact Or.inr (run_batch_RPI cfg web url st hinv)
    · rw [crawl_loop, if_neg hcont]
      exact h

/-- C6 amended: in the completed dataset the root record (when present)
has depth 0 and no parent, and every recorded `parentUrl` is itself a key
of `dataset.pages` — but the equation `depth = pages[parentUrl].depth + 1`
does not survive completion, because a URL still pending in the frontier
can be crawled a second time and its record overwritten at a different
depth (`depth_parent_mismatch_cex`).  Each record was created with depth
one more than the depth its parent record had when the link was enqueued. -/
theorem root_and_parent_recorded (cfg : CrawlerConfig) (web : Web) (url : String)
    (fuel : Nat) (hc : 1 ≤ cfg.concurrency) :
    (∀ r, (crawl_website cfg web url fuel).pages.lookup url = some r →
      r.depth = 0 ∧ r.parent_url = none) ∧
    (∀ u p pu, (crawl_website cfg web url fuel).pages.lookup u = some p →
      p.parent_url = some pu →
      pu ∈ (crawl_website cfg web url fuel).pages.map Prod.fst) := by
  rcases crawl_loop_K cfg web url hc fuel (init_state url) (Or.inl rfl) with hinit | hinv
  · unfold crawl_website at *
    rw [hinit]
    constructor
    · intro r hr; simp [init_state, List.lookup] at hr
    · intro u p pu hp; simp [init_state, List.lookup] at hp
  · exact ⟨fun r hr => hinv.2.2.1 r hr,
      fun u p pu h1 h2 => hinv.2.2.2.1 u p h1 pu h2⟩

/-- Witness for C6 amended: on `depthWeb` the root record has depth 0 and
no parent. -/
theorem root_and_parent_recorded_witness :
    (crawl_page depthWeb "http://h/" 0 none).depth = 0 ∧
    (crawl_page depthWeb "http://h/" 0 none).parent_url = none :=
  (root_and_parent_recorded depthCfg depthWeb "http://h/" 50 (by decide)).1
    (crawl_page depthWeb "http://h/" 0 none) (by decide)

/-! ## C9 — fill methods require an input field and a submit locator -/

theorem foldl_dictInsert_keys {α : Type} (l : List (String × α)) :
    ∀ (d : List (String × α)) (k : String),
      k ∈ ((l.foldl (fun d p => dictInsert d p.1 p.2) d).map Prod.fst) ↔
        k ∈ d.map Prod.fst ∨ k ∈ l.map Prod.fst := by
  induction l with
  | nil => intro d k; simp
  | cons p rest ih =>
    intro d k
    rw [List.foldl_cons, ih]
    rw [dictInsert_mem_keys_iff]
    simp only [List.map_cons, List.mem_cons]
    tauto

theorem nodup_assoc_unique {α : Type} (l : List (String × α)) (k : String) (a b : α)
    (hnd : (l.map Prod.fst).Nodup) (ha : (k, a) ∈ l) (hb : (k, b) ∈ l) : a = b := by
  induction l with
  | nil => cases ha
  | cons p rest ih =>
    simp only [List.map_cons, List.nodup_cons] at hnd
    rcases List.mem_cons.mp ha with rfl | ha2
    · rcases List.mem_cons.mp hb with hb1 | hb2
      · exact (congrArg Prod.snd hb1.symm : _)
      · exact absurd (List.mem_map.mpr ⟨(k, b), hb2, rfl⟩) hnd.1
    · rcases List.mem_cons.mp hb with rfl | hb2
      · exact absurd (List.mem_map.mpr ⟨(k, a), ha2, rfl⟩) hnd.1
      · exact ih hnd.2 ha2 hb2

theorem formsOfPage_nodup_aux (fl : List CrawlForm) :
    ∀ (d : List (String × List ElementLocator)) (fs : List (String × List ElementLocator)),
      (d.map Prod.fst).Nodup →
      (fl.foldlM (fun fs form => do
        let fieldLocs ← (form.fields.filter (fun f => f.is_visible)).mapM create_element_locator
        let formEls ←
          match form.submit_button with
          | some sb => (create_element_locator sb).map (fun l => fieldLocs ++ [l])
          | none => some fieldLocs
        if formEls ≠ [] then
          some (dictInsert fs ("form_" ++ toString (fs.length + 1)) formEls)
        else some fs) d) = some fs →
      (fs.map Prod.fst).Nodup := by
  induction fl with
  | nil =>
    intro d fs hnd h
    simp only [List.foldlM_nil] at h
    obtain rfl := Option.some.inj h
    exact hnd
  | cons form rest ih =>
    intro d fs hnd h
    rw [List.foldlM_cons] at h
    cases hfl : (form.fields.filter (fun f => f.is_visible)).mapM create_element_locator with
    | none =>
      simp only [hfl, Option.bind_eq_bind, Option.none_bind] at h
      cases h
    | some fieldLocs =>
      cases hsb : form.submit_button with
      | none =>
        simp only [hfl, hsb, Option.bind_eq_bind, Option.some_bind] at h
        by_cases hne : fieldLocs ≠ []
        · rw [if_pos hne] at h
          simp only [Option.bind_eq_bind, Option.some_bind] at h
          exact ih _ fs (dictInsert_keys_nodup _ _ _ hnd) h
        · rw [if_neg hne] at h
          simp only [Option.bind_eq_bind, Option.some_bind] at h
          exact ih _ fs hnd h
      | some sb =>
        cases hloc : create_element_locator sb with
        | none =>
          simp only [hfl, hsb, hloc, Option.bind_eq_bind, Option.some_bind,
            Option.map_none', Option.none_bind] at h
          cases h
        | some loc =>
          simp only [hfl, hsb, hloc, Option.bind_eq_bind, Option.some_bind,
            Option.map_some'] at h
          by_cases hne : fieldLocs ++ [loc] ≠ []
          · rw [if_pos hne] at h
            simp only [Option.bind_eq_bind, Option.some_bind] at h
            exact ih _ fs (dictInsert_keys_nodup _ _ _ hnd) h
          · rw [if_neg hne] at h
            simp only [Option.bind_eq_bind, Option.some_bind] at h
            exact ih _ fs hnd h

theorem formsOfPage_nodup (fl : List CrawlForm) (fs : List (String × List ElementLocator))
    (h : formsOfPage fl = some fs) : (fs.map Prod.fst).Nodup :=
  formsOfPage_nodup_aux fl [] fs (by simp) h

theorem string_eq_of_data_eq (a b : String) (h : a.data = b.data) : a = b := by
  cases a; cases b; simp_all

theorem string_append_left_cancel (s a b : String) (h : s ++ a = s ++ b) : a = b := by
  have hd := congrArg String.data h
  rw [String.data_append, String.data_append] at hd
  exact string_eq_of_data_eq a b (List.append_cancel_left hd)

theorem fillLine_ne_empty (e : ElementLocator) : fillLine e ≠ "" := by
  intro h
  have := congrArg String.data h
  rw [show fillLine e = "await self.page.locator(\"" ++ e.selector ++ "\").fill(data.get(\"" ++
    e.name ++ "\", \"\"))" from rfl] at this
  simp only [String.data_append] at this
  cases this

theorem fillMethodEntry_key (fname : String) (fels : List ElementLocator) (e : String × String)
    (h : fillMethodEntry fname fels = some e) : e.1 = "fill_" ++ fname := by
  simp only [fillMethodEntry] at h
  cases hf : fels.find? (fun e => e.element_type = "submit") with
  | none => rw [hf] at h; cases h
  | some s =>
    simp only [hf] at h
    by_cases hj : joinStrSep "\n        "
        ((fels.filter (fun e => strStartsWith e.element_type "input")).map fillLine) ≠ ""
    · rw [if_pos hj] at h
      obtain rfl := Option.some.inj h
      rfl
    · rw [if_neg hj] at h
      cases h

theorem fillMethodEntry_isSome_iff (fname : String) (fels : List ElementLocator) :
    (fillMethodEntry fname fels).isSome = true ↔
      ((∃ el ∈ fels, strStartsWith el.element_type "input" = true) ∧
       (∃ el ∈ fels, el.element_type = "submit")) := by
  simp only [fillMethodEntry]
  cases hf : fels.find? (fun e => e.element_type = "submit") with
  | none =>
    simp only [Option.isSome_none]
    constructor
    · intro h; cases h
    · rintro ⟨_, el, hel, het⟩
      have := List.find?_eq_none.mp hf el hel
      simp [het] at this
  | some s =>
    simp only [hf]
    by_cases hj : joinStrSep "\n        "
        ((fels.filter (fun e => strStartsWith e.element_type "input")).map fillLine) ≠ ""
    · rw [if_pos hj]
      simp only [Option.isSome_some, true_iff]
      constructor
      · by_cases hfil : fels.filter (fun e => strStartsWith e.element_type "input") = []
        · exact absurd (by rw [hfil]; rfl) hj
        · obtain ⟨el, hel⟩ := List.exists_mem_of_ne_nil _ hfil
          obtain ⟨hmem, hpred⟩ := List.mem_filter.mp hel
          exact ⟨el, hmem, hpred⟩
      · refine ⟨s, List.mem_of_find?_eq_some hf, ?_⟩
        have := List.find?_some hf
        simpa using this
    · rw [if_neg hj]
      constructor
      · intro hcontra; cases hcontra
      · rintro ⟨⟨el, hel, hpred⟩, _⟩
        exfalso
        apply hj
        apply joinStrSep_ne_empty
        · intro hnil
          have : fillLine el ∈
              ((fels.filter (fun e => strStartsWith e.element_type "input")).map fillLine) :=
            List.mem_map.mpr ⟨el, List.mem_filter.mpr ⟨hel, hpred⟩, rfl⟩
          rw [hnil] at this
          cases this
        · intro str hstr
          obtain ⟨el2, _, rfl⟩ := List.mem_map.mp hstr
          exact fillLine_ne_empty el2

theorem create_page_object_parts (p : CrawlPage) (po : PageObject)
    (h : create_page_object p = some po) :
    ∃ fs, formsOfPage p.forms = some fs ∧ po.forms = fs ∧
      ∃ els, elementsOfPage p.elements = some els ∧
      po.methods = (([("__init__", initMethodBody), ("navigate", navigateMethodBody p.url)] ++
        els.map (fun q => ("get_" ++ q.1, getterMethodBody q.1 q.2.selector)) ++
        fs.filterMap (fun q => fillMethodEntry q.1 q.2)).foldl
          (fun d q => dictInsert d q.1 q.2) []) := by
  simp only [create_page_object, Option.bind_eq_bind] at h
  cases h1 : create_page_object_name p with
  | none => rw [h1] at h; cases h
  | some name =>
    rw [h1] at h
    simp only [Option.some_bind] at h
    cases h2 : sanitize_name name with
    | none => rw [h2] at h; cases h
    | some sfn =>
      rw [h2] at h
      simp only [Option.some_bind] at h
      cases h3 : elementsOfPage p.elements with
      | none => rw [h3] at h; cases h
      | some els =>
        rw [h3] at h
        simp only [Option.some_bind] at h
        cases h4 : formsOfPage p.forms with
        | none => rw [h4] at h; cases h
        | some fs =>
          rw [h4] at h
          simp only [Option.some_bind] at h
          obtain rfl := Option.some.inj h
          exact ⟨fs, rfl, rfl, els, rfl, rfl⟩

theorem fill_ne_init (f : String) : ("fill_" ++ f : String) ≠ "__init__" := by
  intro h
  have h2 := congrArg String.data h
  rw [String.data_append] at h2
  have h3 : 'f' :: 'i' :: 'l' :: 'l' :: '_' :: f.data =
      ['_', '_', 'i', 'n', 'i', 't', '_', '_'] := h2
  cases h3

theorem fill_ne_nav (f : String) : ("fill_" ++ f : String) ≠ "navigate" := by
  intro h
  have h2 := congrArg String.data h
  rw [String.data_append] at h2
  have h3 : 'f' :: 'i' :: 'l' :: 'l' :: '_' :: f.data =
      ['n', 'a', 'v', 'i', 'g', 'a', 't', 'e'] := h2
  cases h3

theorem fill_ne_get (f g : String) : ("fill_" ++ f : String) ≠ "get_" ++ g := by
  intro h
  have h2 := congrArg String.data h
  rw [String.data_append, String.data_append] at h2
  have h3 : 'f' :: 'i' :: 'l' :: 'l' :: '_' :: f.data =
      'g' :: 'e' :: 't' :: '_' :: g.data := h2
  cases h3

/-- C9: a `fill_{form_name}` method is synthesised for a form of the page
object exactly when the form's locator list has at least one input-typed
locator and a submit locator.  In particular a form with only a
password-typed field (input-typed) but no submit button gets no `fill_*`
method, because the submit locator is missing. -/
theorem fill_method_iff (p : CrawlPage) (po : PageObject)
    (hpo : create_page_object p = some po) (fname : String) (fels : List ElementLocator)
    (hf : (fname, fels) ∈ po.forms) :
    (("fill_" ++ fname) ∈ po.methods.map Prod.fst ↔
      ((∃ el ∈ fels, strStartsWith el.element_type "input" = true) ∧
       (∃ el ∈ fels, el.element_type = "submit"))) := by
  obtain ⟨fs, hfs, hpofs, els, hels, hmeth⟩ := create_page_object_parts p po hpo
  rw [hpofs] at hf
  rw [hmeth, foldl_dictInsert_keys]
  have hnd := formsOfPage_nodup p.forms fs hfs
  constructor
  · rintro (hl | hr)
    · simp at hl
    · rw [List.map_append, List.map_append, List.mem_append, List.mem_append] at hr
      rcases hr with (hb | hg) | hfill
      · simp only [List.map_cons, List.map_nil, List.mem_cons, List.not_mem_nil,
          or_false] at hb
        rcases hb with h1 | h1
        · exact absurd h1 (fill_ne_init fname)
        · exact absurd h1 (fill_ne_nav fname)
      · rw [List.map_map] at hg
        obtain ⟨q, hq, heq⟩ := List.mem_map.mp hg
        exact absurd heq.symm (fill_ne_get fname q.1)
      · obtain ⟨pr, hpr, hprk⟩ := List.mem_map.mp hfill
        obtain ⟨⟨g, gl⟩, hmemfs, hentry⟩ := List.mem_filterMap.mp hpr
        have hkey := fillMethodEntry_key g gl pr hentry
        rw [hkey] at hprk
        obtain rfl : g = fname := string_append_left_cancel "fill_" g fname hprk
        obtain rfl : gl = fels := nodup_assoc_unique fs g gl fels hnd hmemfs hf
        have hsome : (fillMethodEntry g gl).isSome = true := by rw [hentry]; rfl
        exact (fillMethodEntry_isSome_iff g gl).mp hsome
  · intro hrhs
    have hsome := (fillMethodEntry_isSome_iff fname fels).mpr hrhs
    obtain ⟨pr, hpr⟩ := Option.isSome_iff_exists.mp hsome
    right
    rw [List.map_append, List.map_append, List.mem_append, List.mem_append]
    right
    refine List.mem_map.mpr ⟨pr, List.mem_filterMap.mpr ⟨(fname, fels), hf, hpr⟩, ?_⟩
    exact fillMethodEntry_key fname fels pr hpr

/-- Witness for C9 on the password-only, submit-less form page: the
instantiated equivalence (both sides false — no `fill_form_1` method is
generated because the submit locator is missing). -/
theorem fill_method_iff_witness :
    (("fill_" ++ "form_1") ∈
        ((create_page_object pwOnlyPage).getD emptyPageObject).methods.map Prod.fst ↔
      ((∃ el ∈ ((((create_page_object pwOnlyPage).getD emptyPageObject).forms.lookup
            "form_1").getD []),
          strStartsWith el.element_type "input" = true) ∧
       (∃ el ∈ ((((create_page_object pwOnlyPage).getD emptyPageObject).forms.lookup
            "form_1").getD []),
          el.element_type = "submit"))) :=
  fill_method_iff pwOnlyPage ((create_page_object pwOnlyPage).getD emptyPageObject)
    (by decide) "form_1"
    ((((create_page_object pwOnlyPage).getD emptyPageObject).forms.lookup "form_1").getD [])
    (by decide)

/-! ## takeWhile / dropWhile helper lemmas -/

theorem mem_of_mem_dropWhile {p : Char → Bool} {l : Chars} {c : Char}
    (h : c ∈ l.dropWhile p) : c ∈ l := by
  induction l with
  | nil => simp [List.dropWhile] at h
  | cons a t ih =>
    cases hp : p a with
    | true =>
      simp only [List.dropWhile, hp] at h
      exact List.mem_cons_of_mem _ (ih h)
    | false =>
      simp only [List.dropWhile, hp] at h
      exact h

theorem mem_takeWhile_pred {p : Char → Bool} {l : Chars} {c : Char}
    (h : c ∈ l.takeWhile p) : p c = true := by
  induction l with
  | nil => simp [List.takeWhile] at h
  | cons a t ih =>
    cases hp : p a with
    | true =>
      simp only [List.takeWhile, hp] at h
      rcases List.mem_cons.mp h with h | h
      · rw [h]; exact hp
      · exact ih h
    | false =>
      simp only [List.takeWhile, hp] at h
      simp at h

theorem mem_of_mem_takeWhile {p : Char → Bool} {l : Chars} {c : Char}
    (h : c ∈ l.takeWhile p) : c ∈ l := by
  induction l with
  | nil => simp [List.takeWhile] at h
  | cons a t ih =>
    cases hp : p a with
    | true =>
      simp only [List.takeWhile, hp] at h
      rcases List.mem_cons.mp h with h | h
      · exact h ▸ List.mem_cons_self _ _
      · exact List.mem_cons_of_mem _ (ih h)
    | false =>
      simp only [List.takeWhile, hp] at h
      simp at h

theorem takeWhile_all {p : Char → Bool} {l : Chars}
    (h : ∀ c ∈ l, p c = true) : l.takeWhile p = l := by
  induction l with
  | nil => rfl
  | cons a t ih =>
    have hp : p a = true := h a (List.mem_cons_self _ _)
    simp only [List.takeWhile, hp]
    rw [ih (fun c hc => h c (List.mem_cons_of_mem _ hc))]

theorem dropWhile_all {p : Char → Bool} {l : Chars}
    (h : ∀ c ∈ l, p c = true) : l.dropWhile p = [] := by
  induction l with
  | nil => rfl
  | cons a t ih =>
    have hp : p a = true := h a (List.mem_cons_self _ _)
    simp only [List.dropWhile, hp]
    exact ih (fun c hc => h c (List.mem_cons_of_mem _ hc))

theorem takeWhile_append_stop {p : Char → Bool} {x : Char} {l1 l2 : Chars}
    (hx : p x = false) : ((l1 ++ x :: l2).takeWhile p) = l1.takeWhile p := by
  induction l1 with
  | nil => simp [List.takeWhile, hx]
  | cons a t ih =>
    cases hp : p a with
    | true => simp only [List.cons_append, List.takeWhile, hp, List.append_eq, ih]
    | false => simp only [List.cons_append, List.takeWhile, hp]

theorem dropWhile_append_stop {p : Char → Bool} {x : Char} {l1 l2 : Chars}
    (hx : p x = false) : ((l1 ++ x :: l2).dropWhile p) = l1.dropWhile p ++ x :: l2 := by
  induction l1 with
  | nil => simp [List.dropWhile, hx]
  | cons a t ih =>
    cases hp : p a with
    | true => simp only [List.cons_append, List.dropWhile, hp, List.append_eq, ih]
    | false => simp only [List.cons_append, List.dropWhile, hp, List.append_eq]

theorem dropWhile_cons_false {p : Char → Bool} {c : Char} {l : Chars}
    (h : p c = false) : ((c :: l).dropWhile p) = c :: l := by
  simp only [List.dropWhile, h]

theorem dropWhile_head_pred {p : Char → Bool} {l : Chars} {c : Char} {t : Chars}
    (h : l.dropWhile p = c :: t) : p c = false := by
  induction l with
  | nil => simp [List.dropWhile] at h
  | cons a t' ih =>
    cases hp : p a with
    | true =>
      simp only [List.dropWhile, hp] at h
      exact ih h
    | false =>
      simp only [List.dropWhile, hp] at h
      cases h
      exact hp

/-! ## splitFirst specification lemmas -/

theorem splitFirst_eq_none {d : Char} {l : Chars} :
    splitFirst d l = none ↔ d ∉ l := by
  induction l with
  | nil => simp [splitFirst]
  | cons c cs ih =>
    rw [splitFirst]
    by_cases hc : c = d
    · subst hc; simp
    · rw [if_neg hc]
      cases hsp : splitFirst d cs with
      | none =>
        have hd : d ∉ cs := ih.mp hsp
        constructor
        · intro _ hmem
          rcases List.mem_cons.mp hmem with h | h
          · exact hc h.symm
          · exact hd h
        · intro _; rfl
      | some ab =>
        obtain ⟨a, b⟩ := ab
        constructor
        · intro h; cases h
        · intro hn
          exfalso
          have hd : d ∈ cs := by
            by_contra hcs
            rw [ih.mpr hcs] at hsp
            cases hsp
          exact hn (List.mem_cons_of_mem _ hd)

theorem splitFirst_some_spec {d : Char} {l a b : Chars}
    (h : splitFirst d l = some (a, b)) : l = a ++ d :: b ∧ d ∉ a := by
  induction l generalizing a b with
  | nil => simp [splitFirst] at h
  | cons c cs ih =>
    rw [splitFirst] at h
    by_cases hc : c = d
    · subst hc
      rw [if_pos rfl] at h
      cases h
      exact ⟨rfl, List.not_mem_nil _⟩
    · rw [if_neg hc] at h
      cases hsp : splitFirst d cs with
      | none => rw [hsp] at h; cases h
      | some ab =>
        obtain ⟨a0, b0⟩ := ab
        rw [hsp] at h
        cases h
        obtain ⟨h1, h2⟩ := ih hsp
        constructor
        · rw [h1]; rfl
        · intro hx
          rcases List.mem_cons.mp hx with hx | hx
          · exact hc hx.symm
          · exact h2 hx

theorem splitFirst_append_no {d : Char} {l1 l2 : Chars} (h : d ∉ l1) :
    splitFirst d (l1 ++ l2) =
      (splitFirst d l2).map (fun ab => (l1 ++ ab.1, ab.2)) := by
  induction l1 with
  | nil =>
    cases hsp : splitFirst d l2 with
    | none => simp [hsp]
    | some ab => simp [hsp]
  | cons c t ih =>
    have hcd : ¬ c = d := fun hx => h (by rw [hx]; exact List.mem_cons_self _ _)
    have hdt : d ∉ t := fun hx => h (List.mem_cons_of_mem _ hx)
    rw [List.cons_append, splitFirst, if_neg hcd, ih hdt]
    cases hsp : splitFirst d l2 with
    | none => simp
    | some ab => simp

theorem splitFirst_append_cons {d : Char} {a b : Chars} (h : d ∉ a) :
    splitFirst d (a ++ d :: b) = some (a, b) := by
  rw [splitFirst_append_no h]
  rw [splitFirst, if_pos rfl]
  simp

theorem splitFirst_append_left {d : Char} {l1 l2 a b : Chars}
    (h : splitFirst d l1 = some (a, b)) :
    splitFirst d (l1 ++ l2) = some (a, b ++ l2) := by
  obtain ⟨h1, h2⟩ := splitFirst_some_spec h
  rw [h1, List.append_assoc, List.cons_append]
  exact splitFirst_append_cons h2

theorem splitFirst_not_mem {d : Char} {l : Chars} (h : d ∉ l) :
    splitFirst d l = none :=
  splitFirst_eq_none.mpr h

/-! ## Character arithmetic bridges -/

theorem toNat_ofNat_lt (m : Nat) (h : m < 55296) : (Char.ofNat m).toNat = m := by
  have hv : Nat.isValidChar m := Or.inl h
  simp [Char.ofNat, hv, Char.ofNatAux, Char.toNat, UInt32.ofNat', UInt32.toNat]

theorem toLower_toNat (c : Char) :
    (Char.toLower c).toNat = if 65 ≤ c.toNat ∧ c.toNat ≤ 90 then c.toNat + 32 else c.toNat := by
  unfold Char.toLower
  by_cases h : 65 ≤ c.toNat ∧ c.toNat ≤ 90
  · rw [if_pos ⟨h.1, h.2⟩, if_pos h, toNat_ofNat_lt _ (by omega)]
  · rw [if_neg (fun hc => h ⟨hc.1, hc.2⟩), if_neg h]

theorem isUpper_iff_toNat (c : Char) : c.isUpper = true ↔ 65 ≤ c.toNat ∧ c.toNat ≤ 90 := by
  simp only [Char.isUpper, Bool.and_eq_true, decide_eq_true_eq, ge_iff_le, Char.toNat]
  rw [UInt32.le_def, UInt32.le_def]
  rw [show (65 : UInt32).toBitVec = 65#32 from rfl, show (90 : UInt32).toBitVec = 90#32 from rfl]
  simp [BitVec.le_def, UInt32.toNat]

theorem isLower_iff_toNat (c : Char) : c.isLower = true ↔ 97 ≤ c.toNat ∧ c.toNat ≤ 122 := by
  simp only [Char.isLower, Bool.and_eq_true, decide_eq_true_eq, ge_iff_le, Char.toNat]
  rw [UInt32.le_def, UInt32.le_def]
  simp [BitVec.le_def, UInt32.toNat]

theorem isDigit_iff_toNat (c : Char) : c.isDigit = true ↔ 48 ≤ c.toNat ∧ c.toNat ≤ 57 := by
  simp only [Char.isDigit, Bool.and_eq_true, decide_eq_true_eq, ge_iff_le, Char.toNat]
  rw [UInt32.le_def, UInt32.le_def]
  simp [BitVec.le_def, UInt32.toNat]

theorem char_eq_iff_toNat (c d : Char) : c = d ↔ c.toNat = d.toNat := by
  constructor
  · intro h; rw [h]
  · intro h; exact Char.ext (UInt32.ext h)

theorem isAlpha_iff_toNat (c : Char) :
    c.isAlpha = true ↔ (65 ≤ c.toNat ∧ c.toNat ≤ 90) ∨ (97 ≤ c.toNat ∧ c.toNat ≤ 122) := by
  simp only [Char.isAlpha, Bool.or_eq_true]
  rw [isUpper_iff_toNat, isLower_iff_toNat]

theorem isC0OrSpace_iff_toNat (c : Char) : isC0OrSpace c = true ↔ c.toNat ≤ 32 := by
  simp [isC0OrSpace]

theorem isUnsafeUrlChar_iff_toNat (c : Char) :
    isUnsafeUrlChar c = true ↔ c.toNat = 9 ∨ c.toNat = 13 ∨ c.toNat = 10 := by
  simp only [isUnsafeUrlChar, Bool.or_eq_true, decide_eq_true_eq]
  rw [char_eq_iff_toNat, char_eq_iff_toNat, char_eq_iff_toNat]
  rw [show ('\t' : Char).toNat = 9 from rfl, show ('\r' : Char).toNat = 13 from rfl,
      show ('\n' : Char).toNat = 10 from rfl]
  tauto

theorem isSchemeChar_iff_toNat (c : Char) :
    isSchemeChar c = true ↔
      (65 ≤ c.toNat ∧ c.toNat ≤ 90) ∨ (97 ≤ c.toNat ∧ c.toNat ≤ 122) ∨
      (48 ≤ c.toNat ∧ c.toNat ≤ 57) ∨ c.toNat = 43 ∨ c.toNat = 45 ∨ c.toNat = 46 := by
  simp only [isSchemeChar, Char.isAlphanum, Bool.or_eq_true, decide_eq_true_eq]
  rw [isAlpha_iff_toNat, isDigit_iff_toNat,
      char_eq_iff_toNat, char_eq_iff_toNat, char_eq_iff_toNat]
  rw [show ('+' : Char).toNat = 43 from rfl, show ('-' : Char).toNat = 45 from rfl,
      show ('.' : Char).toNat = 46 from rfl]
  tauto

theorem toLower_idem (c : Char) : (Char.toLower (Char.toLower c)) = Char.toLower c := by
  rw [char_eq_iff_toNat]
  simp only [toLower_toNat]
  split_ifs <;> omega

theorem isAlpha_toLower {c : Char} (h : c.isAlpha = true) : (Char.toLower c).isAlpha = true := by
  rw [isAlpha_iff_toNat] at h ⊢
  rw [toLower_toNat]
  by_cases hu : 65 ≤ c.toNat ∧ c.toNat ≤ 90
  · rw [if_pos hu]; omega
  · rw [if_neg hu]; omega

theorem isSchemeChar_toLower {c : Char} (h : isSchemeChar c = true) :
    isSchemeChar (Char.toLower c) = true := by
  rw [isSchemeChar_iff_toNat] at h ⊢
  rw [toLower_toNat]
  by_cases hu : 65 ≤ c.toNat ∧ c.toNat ≤ 90
  · rw [if_pos hu]; omega
  · rw [if_neg hu]; omega

/-- The characters of a valid scheme name are letters or scheme characters;
such characters are printable, safe, and distinct from every URL delimiter. -/
theorem scheme_char_props {c : Char} (h : c.isAlpha = true ∨ isSchemeChar c = true) :
    isUnsafeUrlChar c = false ∧ isC0OrSpace c = false ∧
    c ≠ ':' ∧ c ≠ '#' ∧ c ≠ '/' ∧ c ≠ '?' := by
  have hn : (65 ≤ c.toNat ∧ c.toNat ≤ 90) ∨ (97 ≤ c.toNat ∧ c.toNat ≤ 122) ∨
      (48 ≤ c.toNat ∧ c.toNat ≤ 57) ∨ c.toNat = 43 ∨ c.toNat = 45 ∨ c.toNat = 46 := by
    rcases h with h | h
    · rw [isAlpha_iff_toNat] at h; tauto
    · rw [isSchemeChar_iff_toNat] at h; tauto
  refine ⟨?_, ?_, ?_, ?_, ?_, ?_⟩
  · rw [Bool.eq_false_iff]
    intro hu
    rw [isUnsafeUrlChar_iff_toNat] at hu
    omega
  · rw [Bool.eq_false_iff]
    intro hu
    rw [isC0OrSpace_iff_toNat] at hu
    omega
  · rw [Ne, char_eq_iff_toNat]; intro hx; rw [show (':' : Char).toNat = 58 from rfl] at hx; omega
  · rw [Ne, char_eq_iff_toNat]; intro hx; rw [show ('#' : Char).toNat = 35 from rfl] at hx; omega
  · rw [Ne, char_eq_iff_toNat]; intro hx; rw [show ('/' : Char).toNat = 47 from rfl] at hx; omega
  · rw [Ne, char_eq_iff_toNat]; intro hx; rw [show ('?' : Char).toNat = 63 from rfl] at hx; omega

/-! ## Scheme-name lemmas -/

theorem isSchemeName_mem {l : Chars} (h : isSchemeName l = true) {c : Char} (hc : c ∈ l) :
    c.isAlpha = true ∨ isSchemeChar c = true := by
  cases l with
  | nil => cases hc
  | cons a t =>
    rw [isSchemeName, Bool.and_eq_true] at h
    rcases List.mem_cons.mp hc with hc | hc
    · exact Or.inl (hc ▸ h.1)
    · exact Or.inr (List.all_eq_true.mp h.2 c hc)

theorem isSchemeName_map_toLower {l : Chars} (h : isSchemeName l = true) :
    isSchemeName (l.map Char.toLower) = true := by
  cases l with
  | nil => cases h
  | cons a t =>
    rw [isSchemeName, Bool.and_eq_true] at h
    rw [List.map_cons, isSchemeName, Bool.and_eq_true]
    constructor
    · exact isAlpha_toLower h.1
    · rw [List.all_eq_true]
      intro c hc
      rcases List.mem_map.mp hc with ⟨c0, hc0, hc0e⟩
      exact hc0e ▸ isSchemeChar_toLower (List.all_eq_true.mp h.2 c0 hc0)

theorem map_toLower_idem (l : Chars) :
    (l.map Char.toLower).map Char.toLower = l.map Char.toLower := by
  rw [List.map_map]
  apply List.map_congr_left
  intro c _
  exact toLower_idem c

/-! ## sanitizeUrl lemmas -/

theorem mem_sanitizeUrl {c : Char} {u : Chars} (h : c ∈ sanitizeUrl u) : c ∈ u := by
  rw [sanitizeUrl] at h
  exact mem_of_mem_dropWhile (List.mem_of_mem_filter h)

theorem sanitizeUrl_not_unsafe {c : Char} {u : Chars} (h : c ∈ sanitizeUrl u) :
    isUnsafeUrlChar c = false := by
  rw [sanitizeUrl] at h
  have := List.of_mem_filter h
  simpa using this

theorem sanitizeUrl_eq_self {u : Chars}
    (h1 : ∀ c t, u = c :: t → isC0OrSpace c = false)
    (h2 : ∀ c ∈ u, isUnsafeUrlChar c = false) :
    sanitizeUrl u = u := by
  rw [sanitizeUrl]
  have hd : u.dropWhile isC0OrSpace = u := by
    cases hu : u with
    | nil => rfl
    | cons c t => exact dropWhile_cons_false (h1 c t hu)
  rw [hd]
  apply List.filter_eq_self.mpr
  intro a ha
  simp [h2 a ha]

theorem sanitizeUrl_append_hash (b f : Chars) :
    sanitizeUrl (b ++ '#' :: f) =
      sanitizeUrl b ++ '#' :: f.filter (fun c => !(isUnsafeUrlChar c)) := by
  rw [sanitizeUrl, sanitizeUrl]
  rw [dropWhile_append_stop (by decide)]
  rw [List.filter_append]
  congr 1

/-! ## splitScheme lemmas -/

theorem splitScheme_snd_mem {d u : Chars} {c : Char} (h : c ∈ (splitScheme d u).2) : c ∈ u := by
  cases hsp : splitFirst ':' u with
  | none => simp only [splitScheme, hsp] at h; exact h
  | some ab =>
    obtain ⟨pre, post⟩ := ab
    simp only [splitScheme, hsp] at h
    by_cases hn : isSchemeName pre = true
    · simp only [hn, if_true] at h
      rw [(splitFirst_some_spec hsp).1]
      exact List.mem_append.mpr (Or.inr (List.mem_cons_of_mem _ h))
    · simp only [Bool.not_eq_true] at hn
      simp only [hn, Bool.false_eq_true, if_false] at h
      exact h

theorem splitScheme_cases (d u : Chars) :
    splitScheme d u = (d, u) ∨
    (∃ pre post, splitFirst ':' u = some (pre, post) ∧ isSchemeName pre = true ∧
       splitScheme d u = (pre.map Char.toLower, post)) := by
  cases hsp : splitFirst ':' u with
  | none => left; simp only [splitScheme, hsp]
  | some ab =>
    obtain ⟨pre, post⟩ := ab
    by_cases hn : isSchemeName pre = true
    · right
      refine ⟨pre, post, hsp ▸ rfl, hn, ?_⟩
      simp only [splitScheme, hsp, hn, if_true]
    · left
      simp only [Bool.not_eq_true] at hn
      simp only [splitScheme, hsp, hn, Bool.false_eq_true, if_false]

theorem splitScheme_head_slash (t : Chars) : splitScheme [] ('/' :: t) = ([], '/' :: t) := by
  cases hsp : splitFirst ':' ('/' :: t) with
  | none => simp only [splitScheme, hsp]
  | some ab =>
    obtain ⟨a, b⟩ := ab
    obtain ⟨h1, _⟩ := splitFirst_some_spec hsp
    have hn : isSchemeName a = false := by
      cases a with
      | nil =>
        rw [List.nil_append] at h1
        injection h1 with h1a h1b
        exact absurd h1a (by decide)
      | cons c cs =>
        rw [List.cons_append] at h1
        injection h1 with h1a h1b
        rw [isSchemeName, ← h1a]
        have : ('/' : Char).isAlpha = false := by decide
        rw [this, Bool.false_and]
    simp only [splitScheme, hsp, hn, Bool.false_eq_true, if_false]

theorem splitScheme_append_scheme {sch rest : Chars}
    (h1 : isSchemeName sch = true) (h2 : sch.map Char.toLower = sch) :
    splitScheme [] (sch ++ ':' :: rest) = (sch, rest) := by
  have hc : (':' : Char) ∉ sch := by
    intro hmem
    obtain ⟨_, _, hne, _⟩ := scheme_char_props (isSchemeName_mem h1 hmem)
    exact hne rfl
  have hsp : splitFirst ':' (sch ++ ':' :: rest) = some (sch, rest) := splitFirst_append_cons hc
  simp only [splitScheme, hsp, h1, if_true, h2]

theorem splitScheme_hash (b g : Chars) :
    splitScheme [] (b ++ '#' :: g) =
      ((splitScheme [] b).1, (splitScheme [] b).2 ++ '#' :: g) := by
  cases hsp : splitFirst ':' b with
  | some ab =>
    obtain ⟨pre, post⟩ := ab
    have hsp2 : splitFirst ':' (b ++ '#' :: g) = some (pre, post ++ '#' :: g) :=
      splitFirst_append_left hsp
    by_cases hn : isSchemeName pre = true
    · simp only [splitScheme, hsp, hsp2, hn, if_true]
    · simp only [Bool.not_eq_true] at hn
      simp only [splitScheme, hsp, hsp2, hn, Bool.false_eq_true, if_false]
  | none =>
    have hnb : (':' : Char) ∉ b := splitFirst_eq_none.mp hsp
    cases hsg : splitFirst ':' g with
    | none =>
      have hall : splitFirst ':' (b ++ '#' :: g) = none := by
        apply splitFirst_not_mem
        intro hmem
        rcases List.mem_append.mp hmem with h | h
        · exact hnb h
        · rcases List.mem_cons.mp h with h | h
          · exact absurd h (by decide)
          · exact splitFirst_eq_none.mp hsg h
      simp only [splitScheme, hsp, hall]
    | some ab =>
      obtain ⟨g1, g2⟩ := ab
      have hsp2 : splitFirst ':' (b ++ '#' :: g) = some (b ++ '#' :: g1, g2) := by
        have hnbh : (':' : Char) ∉ b ++ ['#'] := by
          intro hmem
          rcases List.mem_append.mp hmem with h | h
          · exact hnb h
          · rcases List.mem_singleton.mp h with h
            exact absurd h (by decide)
        have hQ := @splitFirst_append_no ':' (b ++ ['#']) g hnbh
        rw [List.append_assoc, List.singleton_append, hsg] at hQ
        rw [hQ]
        simp [List.append_assoc]
      have hn : isSchemeName (b ++ '#' :: g1) = false := by
        rw [Bool.eq_false_iff]
        intro hx
        obtain ⟨_, _, _, hne, _, _⟩ :=
          scheme_char_props (isSchemeName_mem hx (List.mem_append.mpr (Or.inr (List.mem_cons_self _ _))))
        exact hne rfl
      simp only [splitScheme, hsp, hsp2, hn, Bool.false_eq_true, if_false]

/-! ## Netloc-stage lemmas -/

theorem splitNetlocStage_not_authority {r : Chars} (h : ¬ r.take 2 = ['/', '/']) :
    splitNetlocStage r = ([], r) := by
  rw [splitNetlocStage, if_neg h]

theorem splitNetlocStage_authority {nl T : Chars}
    (hnl : ∀ c ∈ nl, isNetlocDelim c = false)
    (hT : T = [] ∨ ∃ c t, T = c :: t ∧ isNetlocDelim c = true) :
    splitNetlocStage ('/' :: '/' :: (nl ++ T)) = (nl, T) := by
  have htake : List.take 2 ('/' :: '/' :: (nl ++ T)) = ['/', '/'] := rfl
  rw [splitNetlocStage, if_pos htake]
  show ((nl ++ T).takeWhile _, (nl ++ T).dropWhile _) = (nl, T)
  have hp : ∀ c ∈ nl, (fun c => !(isNetlocDelim c)) c = true := by
    intro c hc; simp [hnl c hc]
  rcases hT with hT | ⟨c, t, hTe, hTc⟩
  · subst hT
    rw [List.append_nil, takeWhile_all hp, dropWhile_all hp]
  · subst hTe
    rw [takeWhile_append_stop (by simp [hTc]), takeWhile_all hp,
        dropWhile_append_stop (by simp [hTc]), dropWhile_all hp]
    rw [List.nil_append]

theorem splitNetlocStage_fst_mem {r : Chars} {c : Char}
    (h : c ∈ (splitNetlocStage r).1) : c ∈ r := by
  rw [splitNetlocStage] at h
  by_cases ht : r.take 2 = ['/', '/']
  · rw [if_pos ht] at h
    exact List.mem_of_mem_drop (mem_of_mem_takeWhile h)
  · rw [if_neg ht] at h; cases h

theorem splitNetlocStage_snd_mem {r : Chars} {c : Char}
    (h : c ∈ (splitNetlocStage r).2) : c ∈ r := by
  rw [splitNetlocStage] at h
  by_cases ht : r.take 2 = ['/', '/']
  · rw [if_pos ht] at h
    exact List.mem_of_mem_drop (mem_of_mem_dropWhile h)
  · rw [if_neg ht] at h; exact h

theorem splitNetlocStage_fst_delim {r : Chars} {c : Char}
    (h : c ∈ (splitNetlocStage r).1) : isNetlocDelim c = false := by
  rw [splitNetlocStage] at h
  by_cases ht : r.take 2 = ['/', '/']
  · rw [if_pos ht] at h
    have := mem_takeWhile_pred h
    simpa using this
  · rw [if_neg ht] at h; cases h

theorem splitNetlocStage_hash {c0 g : Chars} (h : ('#' : Char) ∉ c0) :
    splitNetlocStage (c0 ++ '#' :: g) =
      ((splitNetlocStage c0).1, (splitNetlocStage c0).2 ++ '#' :: g) := by
  cases c0 with
  | nil =>
    have hna : ¬ (('#' :: g).take 2 = ['/', '/']) := by
      cases g with
      | nil => decide
      | cons x t =>
        intro heq
        simp at heq
    rw [List.nil_append, splitNetlocStage_not_authority hna,
        splitNetlocStage_not_authority (by decide)]
    rfl
  | cons a t =>
    cases t with
    | nil =>
      have hna : ¬ ((a :: '#' :: g).take 2 = ['/', '/']) := by
        intro heq
        simp at heq
      rw [List.cons_append, List.nil_append, splitNetlocStage_not_authority hna,
          splitNetlocStage_not_authority (by simp)]
      rfl
    | cons a2 t2 =>
      by_cases hsl : a = '/' ∧ a2 = '/'
      · obtain ⟨rfl, rfl⟩ := hsl
        have hh : ('#' : Char) ∉ t2 := fun hx => h (by simp [hx])
        rw [show ('/' :: '/' :: t2) ++ '#' :: g = '/' :: '/' :: (t2 ++ '#' :: g) from rfl]
        have htake1 : List.take 2 ('/' :: '/' :: (t2 ++ '#' :: g)) = ['/', '/'] := rfl
        have htake2 : List.take 2 ('/' :: '/' :: t2) = ['/', '/'] := rfl
        rw [splitNetlocStage, if_pos htake1, splitNetlocStage, if_pos htake2]
        show ((t2 ++ '#' :: g).takeWhile _, (t2 ++ '#' :: g).dropWhile _) =
          ((t2.takeWhile _ : Chars), (t2.dropWhile _ : Chars) ++ '#' :: g)
        rw [takeWhile_append_stop (by decide), dropWhile_append_stop (by decide)]
      · have hna1 : ¬ ((a :: a2 :: (t2 ++ '#' :: g)).take 2 = ['/', '/']) := by
          intro heq
          simp at heq
          exact hsl heq
        have hna2 : ¬ ((a :: a2 :: t2).take 2 = ['/', '/']) := by
          intro heq
          simp at heq
          exact hsl heq
        rw [show (a :: a2 :: t2) ++ '#' :: g = a :: a2 :: (t2 ++ '#' :: g) from rfl]
        rw [splitNetlocStage_not_authority hna1, splitNetlocStage_not_authority hna2]
        rfl

/-! ## Fragment-stage lemmas -/

theorem splitFragStage_none {l : Chars} (h : ('#' : Char) ∉ l) : splitFragStage l = (l, []) := by
  simp only [splitFragStage, splitFirst_not_mem h]

theorem splitFragStage_hash {a g : Chars} (h : ('#' : Char) ∉ a) :
    splitFragStage (a ++ '#' :: g) = (a, g) := by
  simp only [splitFragStage, splitFirst_append_cons h]

theorem splitFragStage_fst_no_hash (l : Chars) : ('#' : Char) ∉ (splitFragStage l).1 := by
  cases hsp : splitFirst '#' l with
  | none =>
    simp only [splitFragStage, hsp]
    exact splitFirst_eq_none.mp hsp
  | some ab =>
    obtain ⟨a, b⟩ := ab
    simp only [splitFragStage, hsp]
    exact (splitFirst_some_spec hsp).2

theorem splitFragStage_fst_mem {l : Chars} {c : Char} (h : c ∈ (splitFragStage l).1) : c ∈ l := by
  cases hsp : splitFirst '#' l with
  | none => simp only [splitFragStage, hsp] at h; exact h
  | some ab =>
    obtain ⟨a, b⟩ := ab
    simp only [splitFragStage, hsp] at h
    rw [(splitFirst_some_spec hsp).1]
    exact List.mem_append.mpr (Or.inl h)

theorem splitFragStage_fst_head (l : Chars) :
    (splitFragStage l).1 = [] ∨ (splitFragStage l).1.head? = l.head? := by
  cases hsp : splitFirst '#' l with
  | none => right; simp only [splitFragStage, hsp]
  | some ab =>
    obtain ⟨a, b⟩ := ab
    simp only [splitFragStage, hsp]
    cases a with
    | nil => left; rfl
    | cons x t =>
      right
      rw [(splitFirst_some_spec hsp).1]
      rfl

/-! ## Query-stage lemmas -/

theorem splitQueryStage_none {l : Chars} (h : ('?' : Char) ∉ l) : splitQueryStage l = (l, []) := by
  simp only [splitQueryStage, splitFirst_not_mem h]

theorem splitQueryStage_append {a q : Chars} (h : ('?' : Char) ∉ a) :
    splitQueryStage (a ++ '?' :: q) = (a, q) := by
  simp only [splitQueryStage, splitFirst_append_cons h]

theorem splitQueryStage_fst_no_qm (l : Chars) : ('?' : Char) ∉ (splitQueryStage l).1 := by
  cases hsp : splitFirst '?' l with
  | none =>
    simp only [splitQueryStage, hsp]
    exact splitFirst_eq_none.mp hsp
  | some ab =>
    obtain ⟨a, b⟩ := ab
    simp only [splitQueryStage, hsp]
    exact (splitFirst_some_spec hsp).2

theorem splitQueryStage_fst_mem {l : Chars} {c : Char} (h : c ∈ (splitQueryStage l).1) : c ∈ l := by
  cases hsp : splitFirst '?' l with
  | none => simp only [splitQueryStage, hsp] at h; exact h
  | some ab =>
    obtain ⟨a, b⟩ := ab
    simp only [splitQueryStage, hsp] at h
    rw [(splitFirst_some_spec hsp).1]
    exact List.mem_append.mpr (Or.inl h)

theorem splitQueryStage_snd_mem {l : Chars} {c : Char} (h : c ∈ (splitQueryStage l).2) : c ∈ l := by
  cases hsp : splitFirst '?' l with
  | none => simp only [splitQueryStage, hsp] at h; cases h
  | some ab =>
    obtain ⟨a, b⟩ := ab
    simp only [splitQueryStage, hsp] at h
    rw [(splitFirst_some_spec hsp).1]
    exact List.mem_append.mpr (Or.inr (List.mem_cons_of_mem _ h))

theorem splitQueryStage_fst_head (l : Chars) :
    (splitQueryStage l).1 = [] ∨ (splitQueryStage l).1.head? = l.head? := by
  cases hsp : splitFirst '?' l with
  | none => right; simp only [splitQueryStage, hsp]
  | some ab =>
    obtain ⟨a, b⟩ := ab
    simp only [splitQueryStage, hsp]
    cases a with
    | nil => left; rfl
    | cons x t =>
      right
      rw [(splitFirst_some_spec hsp).1]
      rfl

/-! ## urlsplit component lemmas -/

theorem urlsplitChars_eq (dflt u : Chars) :
    urlsplitChars dflt u =
      ⟨(splitScheme (sanitizeScheme dflt) (sanitizeUrl u)).1,
       (splitNetlocStage (splitScheme (sanitizeScheme dflt) (sanitizeUrl u)).2).1,
       (splitQueryStage (splitFragStage (splitNetlocStage
         (splitScheme (sanitizeScheme dflt) (sanitizeUrl u)).2).2).1).1,
       (splitQueryStage (splitFragStage (splitNetlocStage
         (splitScheme (sanitizeScheme dflt) (sanitizeUrl u)).2).2).1).2,
       (splitFragStage (splitNetlocStage
         (splitScheme (sanitizeScheme dflt) (sanitizeUrl u)).2).2).2⟩ := rfl

theorem urlsplit_netloc_delim {dflt u : Chars} {c : Char}
    (h : c ∈ (urlsplitChars dflt u).netloc) : isNetlocDelim c = false := by
  rw [urlsplitChars_eq] at h
  exact splitNetlocStage_fst_delim h

theorem urlsplit_netloc_mem {dflt u : Chars} {c : Char}
    (h : c ∈ (urlsplitChars dflt u).netloc) : c ∈ sanitizeUrl u := by
  rw [urlsplitChars_eq] at h
  exact splitScheme_snd_mem (splitNetlocStage_fst_mem h)

theorem urlsplit_path_mem {dflt u : Chars} {c : Char}
    (h : c ∈ (urlsplitChars dflt u).path) : c ∈ sanitizeUrl u := by
  rw [urlsplitChars_eq] at h
  exact splitScheme_snd_mem (splitNetlocStage_snd_mem
    (splitFragStage_fst_mem (splitQueryStage_fst_mem h)))

theorem urlsplit_query_mem {dflt u : Chars} {c : Char}
    (h : c ∈ (urlsplitChars dflt u).query) : c ∈ sanitizeUrl u := by
  rw [urlsplitChars_eq] at h
  exact splitScheme_snd_mem (splitNetlocStage_snd_mem
    (splitFragStage_fst_mem (splitQueryStage_snd_mem h)))

theorem urlsplit_path_no_hash (dflt u : Chars) : ('#' : Char) ∉ (urlsplitChars dflt u).path := by
  rw [urlsplitChars_eq]
  intro h
  exact splitFragStage_fst_no_hash _ (splitQueryStage_fst_mem h)

theorem urlsplit_path_no_qm (dflt u : Chars) : ('?' : Char) ∉ (urlsplitChars dflt u).path := by
  rw [urlsplitChars_eq]
  exact splitQueryStage_fst_no_qm _

theorem urlsplit_query_no_hash (dflt u : Chars) : ('#' : Char) ∉ (urlsplitChars dflt u).query := by
  rw [urlsplitChars_eq]
  intro h
  exact splitFragStage_fst_no_hash _ (splitQueryStage_snd_mem h)

theorem urlsplit_scheme_cases (u : Chars) :
    (urlsplitChars [] u).scheme = [] ∨
    (isSchemeName (urlsplitChars [] u).scheme = true ∧
     (urlsplitChars [] u).scheme.map Char.toLower = (urlsplitChars [] u).scheme) := by
  rcases splitScheme_cases (sanitizeScheme []) (sanitizeUrl u) with h | ⟨pre, post, hsp, hn, h⟩
  · left
    rw [urlsplitChars_eq]
    show (splitScheme (sanitizeScheme []) (sanitizeUrl u)).1 = []
    rw [h]
    rfl
  · right
    have hs : (urlsplitChars [] u).scheme = pre.map Char.toLower := by
      rw [urlsplitChars_eq]
      show (splitScheme (sanitizeScheme []) (sanitizeUrl u)).1 = pre.map Char.toLower
      rw [h]
    rw [hs]
    exact ⟨isSchemeName_map_toLower hn, map_toLower_idem pre⟩

theorem stage_path_head {r : Chars} {c : Char} {t : Chars}
    (hnl : (splitNetlocStage r).1 ≠ [])
    (hx : (splitQueryStage (splitFragStage (splitNetlocStage r).2).1).1 = c :: t) :
    c = '/' := by
  have hcmem : c ∈ (splitQueryStage (splitFragStage (splitNetlocStage r).2).1).1 := by
    rw [hx]; exact List.mem_cons_self _ _
  have hcq : c ≠ '?' := fun he => splitQueryStage_fst_no_qm _ (he ▸ hcmem)
  have hch : c ≠ '#' := fun he =>
    splitFragStage_fst_no_hash _ (he ▸ splitQueryStage_fst_mem hcmem)
  rcases splitQueryStage_fst_head (splitFragStage (splitNetlocStage r).2).1 with hq | hq
  · rw [hx] at hq; cases hq
  · rw [hx] at hq
    rcases splitFragStage_fst_head (splitNetlocStage r).2 with hf | hf
    · rw [hf] at hq; simp at hq
    · have hcd : (splitNetlocStage r).2.head? = some c := by
        rw [← hf, ← hq]; rfl
      by_cases hb : r.take 2 = ['/', '/']
      · have hrw : (splitNetlocStage r).2 =
            (r.drop 2).dropWhile (fun x => !(isNetlocDelim x)) := by
          rw [splitNetlocStage, if_pos hb]
        rw [hrw] at hcd
        cases hdw : (r.drop 2).dropWhile (fun x => !(isNetlocDelim x)) with
        | nil => rw [hdw] at hcd; cases hcd
        | cons c0 t0 =>
          rw [hdw] at hcd
          have hc0 : c0 = c := by simpa using hcd
          have hpred := dropWhile_head_pred hdw
          have hdel : isNetlocDelim c = true := by
            rw [← hc0]
            simpa using hpred
          have hcase : (c = '/' ∨ c = '?') ∨ c = '#' := by
            simpa [isNetlocDelim, Bool.or_eq_true, decide_eq_true_eq] using hdel
          rcases hcase with h | h
          · rcases h with h | h
            · exact h
            · exact absurd h hcq
          · exact absurd h hch
      · exfalso
        apply hnl
        rw [splitNetlocStage_not_authority hb]

theorem urlsplit_path_head {dflt u : Chars} (h : (urlsplitChars dflt u).netloc ≠ []) :
    (urlsplitChars dflt u).path = [] ∨ (urlsplitChars dflt u).path.take 1 = ['/'] := by
  cases hx : (urlsplitChars dflt u).path with
  | nil => exact Or.inl rfl
  | cons c t =>
    right
    have hnl : (splitNetlocStage (splitScheme (sanitizeScheme dflt) (sanitizeUrl u)).2).1 ≠ [] := by
      intro he
      apply h
      rw [urlsplitChars_eq]
      exact he
    have hx' : (splitQueryStage (splitFragStage (splitNetlocStage
        (splitScheme (sanitizeScheme dflt) (sanitizeUrl u)).2).2).1).1 = c :: t := by
      rw [urlsplitChars_eq] at hx
      exact hx
    rw [show List.take 1 (c :: t) = [c] from rfl, stage_path_head hnl hx']

/-! ## splitParams / recombineParams lemmas -/

theorem splitParams_recombine {pa : Chars} (h : (splitParams pa).2 ≠ []) :
    (splitParams pa).1 ++ ';' :: (splitParams pa).2 = pa := by
  by_cases hm : ('/' : Char) ∈ pa
  · cases hs1 : splitFirst '/' pa.reverse with
    | none =>
      exact absurd (List.mem_reverse.mpr hm) (splitFirst_eq_none.mp hs1)
    | some ab =>
      obtain ⟨rs, rp⟩ := ab
      cases hs2 : splitFirst ';' rs.reverse with
      | none =>
        exact absurd (by simp only [splitParams, if_pos hm, hs1, hs2]) h
      | some xy =>
        obtain ⟨x, y⟩ := xy
        simp only [splitParams, if_pos hm, hs1, hs2]
        obtain ⟨h1, h2⟩ := splitFirst_some_spec hs1
        obtain ⟨h3, h4⟩ := splitFirst_some_spec hs2
        have hpa : pa = rp.reverse ++ '/' :: rs.reverse := by
          have hq := congrArg List.reverse h1
          rw [List.reverse_reverse] at hq
          rw [hq]
          simp [List.reverse_append]
        rw [hpa, h3]
        simp [List.reverse_cons, List.append_assoc]
  · cases hs : splitFirst ';' pa with
    | none =>
      exact absurd (by simp only [splitParams, if_neg hm, hs]) h
    | some xy =>
      obtain ⟨x, y⟩ := xy
      simp only [splitParams, if_neg hm, hs]
      exact ((splitFirst_some_spec hs).1).symm

theorem splitParams_snd_nil {pa : Chars} (h : (splitParams pa).2 = []) :
    (splitParams pa).1 = pa ∨ pa = (splitParams pa).1 ++ [';'] := by
  by_cases hm : ('/' : Char) ∈ pa
  · cases hs1 : splitFirst '/' pa.reverse with
    | none =>
      exact absurd (List.mem_reverse.mpr hm) (splitFirst_eq_none.mp hs1)
    | some ab =>
      obtain ⟨rs, rp⟩ := ab
      cases hs2 : splitFirst ';' rs.reverse with
      | none =>
        left
        simp only [splitParams, if_pos hm, hs1, hs2]
      | some xy =>
        obtain ⟨x, y⟩ := xy
        right
        have hy : y = [] := by
          have := h
          simp only [splitParams, if_pos hm, hs1, hs2] at this
          exact this
        obtain ⟨h1, h2⟩ := splitFirst_some_spec hs1
        obtain ⟨h3, h4⟩ := splitFirst_some_spec hs2
        simp only [splitParams, if_pos hm, hs1, hs2]
        have hpa : pa = rp.reverse ++ '/' :: rs.reverse := by
          have hq := congrArg List.reverse h1
          rw [List.reverse_reverse] at hq
          rw [hq]
          simp [List.reverse_append]
        rw [hpa, h3, hy]
        simp [List.reverse_cons, List.append_assoc]
  · cases hs : splitFirst ';' pa with
    | none =>
      left
      simp only [splitParams, if_neg hm, hs]
    | some xy =>
      obtain ⟨x, y⟩ := xy
      right
      have hy : y = [] := by
        have := h
        simp only [splitParams, if_neg hm, hs] at this
        exact this
      obtain ⟨h1, h2⟩ := splitFirst_some_spec hs
      simp only [splitParams, if_neg hm, hs]
      rw [h1, hy]

theorem splitParams_fst_split (pa : Chars) :
    splitParams (splitParams pa).1 = ((splitParams pa).1, []) := by
  by_cases hm : ('/' : Char) ∈ pa
  · cases hs1 : splitFirst '/' pa.reverse with
    | none =>
      exact absurd (List.mem_reverse.mpr hm) (splitFirst_eq_none.mp hs1)
    | some ab =>
      obtain ⟨rs, rp⟩ := ab
      cases hs2 : splitFirst ';' rs.reverse with
      | none =>
        have hfst : (splitParams pa).1 = pa := by
          simp only [splitParams, if_pos hm, hs1, hs2]
        rw [hfst]
        simp only [splitParams, if_pos hm, hs1, hs2]
      | some xy =>
        obtain ⟨x, y⟩ := xy
        obtain ⟨h1, h2⟩ := splitFirst_some_spec hs1
        obtain ⟨h3, h4⟩ := splitFirst_some_spec hs2
        have hxs : ∀ c ∈ x, c ∈ rs := by
          intro c hc
          rw [← List.mem_reverse, h3]
          exact List.mem_append.mpr (Or.inl hc)
        have hslx : ('/' : Char) ∉ x := fun hc => h2 (hxs '/' hc)
        have hfst : (splitParams pa).1 = ('/' :: rp).reverse ++ x := by
          simp only [splitParams, if_pos hm, hs1, hs2]
        have hX : ('/' :: rp).reverse ++ x = rp.reverse ++ '/' :: x := by
          simp [List.reverse_cons, List.append_assoc]
        rw [hfst, hX]
        have hmemX : ('/' : Char) ∈ rp.reverse ++ '/' :: x :=
          List.mem_append.mpr (Or.inr (List.mem_cons_self _ _))
        have hrev : (rp.reverse ++ '/' :: x).reverse = x.reverse ++ '/' :: rp := by
          simp [List.reverse_append, List.reverse_cons, List.append_assoc]
        have hsX1 : splitFirst '/' ((rp.reverse ++ '/' :: x).reverse) = some (x.reverse, rp) := by
          rw [hrev]
          exact splitFirst_append_cons (fun hc => hslx (List.mem_reverse.mp hc))
        have hsX2 : splitFirst ';' ((x.reverse : Chars)).reverse = none := by
          rw [List.reverse_reverse]
          exact splitFirst_not_mem h4
        simp only [splitParams, if_pos hmemX, hsX1, hsX2]
  · cases hs : splitFirst ';' pa with
    | none =>
      have hfst : (splitParams pa).1 = pa := by
        simp only [splitParams, if_neg hm, hs]
      rw [hfst]
      simp only [splitParams, if_neg hm, hs]
    | some xy =>
      obtain ⟨x, y⟩ := xy
      obtain ⟨h1, h2⟩ := splitFirst_some_spec hs
      have hfst : (splitParams pa).1 = x := by
        simp only [splitParams, if_neg hm, hs]
      have hxm : ∀ c ∈ x, c ∈ pa := by
        intro c hc
        rw [h1]
        exact List.mem_append.mpr (Or.inl hc)
      have hmx : ('/' : Char) ∉ x := fun hc => hm (hxm '/' hc)
      rw [hfst]
      simp only [splitParams, if_neg hmx, splitFirst_not_mem h2]

theorem recombineParams_cases (sch pa : Chars) :
    recombineParams sch pa = pa ∨ pa = recombineParams sch pa ++ [';'] := by
  simp only [recombineParams]
  by_cases hc : usesParams.contains sch ∧ (';' : Char) ∈ pa
  · rw [if_pos hc]
    by_cases h2 : (splitParams pa).2 = []
    · rw [if_neg (by simp [h2])]
      rcases splitParams_snd_nil h2 with he | he
      · left; exact he
      · right; exact he
    · rw [if_pos h2]
      left; exact splitParams_recombine h2
  · rw [if_neg hc]; left; rfl

theorem recombineParams_mem {sch pa : Chars} {c : Char}
    (h : c ∈ recombineParams sch pa) : c ∈ pa := by
  rcases recombineParams_cases sch pa with he | he
  · rw [he] at h; exact h
  · rw [he]; exact List.mem_append.mpr (Or.inl h)

theorem recombineParams_slash {sch pa : Chars} (hpa : pa = [] ∨ pa.take 1 = ['/']) :
    recombineParams sch pa = [] ∨ (recombineParams sch pa).take 1 = ['/'] := by
  rcases recombineParams_cases sch pa with he | he
  · rw [he]; exact hpa
  · cases hx : recombineParams sch pa with
    | nil => left; rfl
    | cons a t =>
      right
      rw [hx] at he
      rcases hpa with hpa | hpa
      · rw [hpa] at he; cases he
      · rw [he] at hpa
        exact hpa

theorem recombineParams_idem (sch pa : Chars) :
    recombineParams sch (recombineParams sch pa) = recombineParams sch pa := by
  by_cases hc : usesParams.contains sch ∧ (';' : Char) ∈ pa
  · by_cases h2 : (splitParams pa).2 = []
    · have hr : recombineParams sch pa = (splitParams pa).1 := by
        simp only [recombineParams]
        rw [if_pos hc, if_neg (by simp [h2])]
      rw [hr]
      simp only [recombineParams]
      by_cases hc2 : usesParams.contains sch ∧ (';' : Char) ∈ (splitParams pa).1
      · rw [if_pos hc2, splitParams_fst_split pa, if_neg (fun hx => hx rfl)]
      · rw [if_neg hc2]
    · have hr : recombineParams sch pa = pa := by
        simp only [recombineParams]
        rw [if_pos hc, if_pos h2]
        exact splitParams_recombine h2
      rw [hr]
      exact hr
  · have hr : recombineParams sch pa = pa := by
      simp only [recombineParams]
      rw [if_neg hc]
    rw [hr]
    exact hr

/-! ## Canonicalisation through urlsplit -/

theorem canonChars_eq_unsplit (u : Chars) :
    canonChars u =
      urlunsplitChars ⟨(urlsplitChars [] u).scheme, (urlsplitChars [] u).netloc,
        recombineParams (urlsplitChars [] u).scheme (urlsplitChars [] u).path,
        (urlsplitChars [] u).query, []⟩ := by
  by_cases hc : usesParams.contains (urlsplitChars [] u).scheme = true ∧
      (';' : Char) ∈ (urlsplitChars [] u).path
  · simp only [canonChars, urlparseChars, recombineParams]
    rw [if_pos hc, if_pos hc]
    simp only [urlunparseChars]
  · simp only [canonChars, urlparseChars, recombineParams]
    rw [if_neg hc, if_neg hc]
    simp only [urlunparseChars]
    rw [if_neg (fun hx => hx rfl)]

/-! ## urlunsplit membership and assembly lemmas -/

set_option maxHeartbeats 2000000 in
theorem mem_urlunsplit_nofrag {p : UrlSplit} {c : Char} (hf : p.fragment = [])
    (h : c ∈ urlunsplitChars p) :
    c ∈ p.scheme ∨ c ∈ p.netloc ∨ c ∈ p.path ∨ c ∈ p.query ∨ c = ':' ∨ c = '/' ∨ c = '?' := by
  simp only [urlunsplitChars, hf] at h
  rw [if_neg (fun hx => hx rfl)] at h
  split_ifs at h <;>
    (try simp only [List.mem_append, List.mem_cons, List.not_mem_nil] at h) <;>
    tauto

theorem urlsplitChars_stages (u0 u1 sch R nl T1 T pa q frag : Chars)
    (hsan : sanitizeUrl u0 = u1)
    (hss : splitScheme [] u1 = (sch, R))
    (hnls : splitNetlocStage R = (nl, T1))
    (hfs : splitFragStage T1 = (T, frag))
    (hqs : splitQueryStage T = (pa, q)) :
    urlsplitChars [] u0 = ⟨sch, nl, pa, q, frag⟩ := by
  rw [urlsplitChars_eq]
  rw [show sanitizeScheme ([] : Chars) = [] from rfl]
  rw [hsan, hss]
  show (⟨sch, (splitNetlocStage R).1,
      (splitQueryStage (splitFragStage (splitNetlocStage R).2).1).1,
      (splitQueryStage (splitFragStage (splitNetlocStage R).2).1).2,
      (splitFragStage (splitNetlocStage R).2).2⟩ : UrlSplit) = ⟨sch, nl, pa, q, frag⟩
  rw [hnls]
  show (⟨sch, nl, (splitQueryStage (splitFragStage T1).1).1,
      (splitQueryStage (splitFragStage T1).1).2, (splitFragStage T1).2⟩ : UrlSplit) = _
  rw [hfs]
  show (⟨sch, nl, (splitQueryStage T).1, (splitQueryStage T).2, frag⟩ : UrlSplit) = _
  rw [hqs]

theorem hash_not_mem_canonChars (u : Chars) : ('#' : Char) ∉ canonChars u := by
  intro h
  rw [canonChars_eq_unsplit] at h
  rcases mem_urlunsplit_nofrag rfl h with h | h | h | h | h | h | h
  · rcases urlsplit_scheme_cases u with hs | ⟨hs, _⟩
    · rw [hs] at h; cases h
    · obtain ⟨_, _, _, hne, _, _⟩ := scheme_char_props (isSchemeName_mem hs h)
      exact hne rfl
  · have := urlsplit_netloc_delim h
    simp [isNetlocDelim] at this
  · exact urlsplit_path_no_hash [] u (recombineParams_mem h)
  · exact urlsplit_query_no_hash [] u h
  · exact absurd h (by decide)
  · exact absurd h (by decide)
  · exact absurd h (by decide)

/-- Re-splitting the URL that `urlunsplit` assembles from well-formed
components with a nonempty netloc recovers the components exactly. -/
theorem urlsplit_unsplit (sch nl pa q : Chars)
    (hsch : sch = [] ∨ (isSchemeName sch = true ∧ sch.map Char.toLower = sch))
    (hnl : ∀ c ∈ nl, isNetlocDelim c = false)
    (hnlne : nl ≠ [])
    (hpahd : pa = [] ∨ pa.take 1 = ['/'])
    (hpah : ('#' : Char) ∉ pa) (hpaq : ('?' : Char) ∉ pa)
    (hqh : ('#' : Char) ∉ q)
    (hnlu : ∀ c ∈ nl, isUnsafeUrlChar c = false)
    (hpau : ∀ c ∈ pa, isUnsafeUrlChar c = false)
    (hqu : ∀ c ∈ q, isUnsafeUrlChar c = false) :
    urlsplitChars [] (urlunsplitChars ⟨sch, nl, pa, q, []⟩) = ⟨sch, nl, pa, q, []⟩ := by
  have hinner : (if pa ≠ [] ∧ pa.take 1 ≠ ['/'] then '/' :: pa else pa) = pa := by
    rcases hpahd with h | h
    · rw [if_neg (fun hx => hx.1 h)]
    · rw [if_neg (fun hx => hx.2 h)]
  have hcond : nl ≠ [] ∨ (sch ≠ [] ∧ usesNetloc.contains sch = true ∧ pa.take 2 ≠ ['/', '/']) :=
    Or.inl hnlne
  by_cases hq : q = []
  · subst hq
    have hT : pa = [] ∨ ∃ c t, pa = c :: t ∧ isNetlocDelim c = true := by
      cases pa with
      | nil => exact Or.inl rfl
      | cons c0 t0 =>
        right
        have hc0 : c0 = '/' := by
          rcases hpahd with h | h
          · cases h
          · simpa using h
        exact ⟨c0, t0, rfl, by rw [hc0]; decide⟩
    have hfs : splitFragStage pa = (pa, []) := splitFragStage_none hpah
    have hqs : splitQueryStage pa = (pa, []) := splitQueryStage_none hpaq
    rcases hsch with hs | ⟨hschN, hschL⟩
    · subst hs
      have hSval : urlunsplitChars ⟨[], nl, pa, [], []⟩ = '/' :: '/' :: (nl ++ pa) := by
        simp only [urlunsplitChars]
        rw [if_neg (fun hx => hx rfl), if_neg (fun hx => hx rfl),
            if_neg (fun hx => hx rfl), if_pos hcond, hinner]
      rw [hSval]
      have hsan : sanitizeUrl ('/' :: '/' :: (nl ++ pa)) = '/' :: '/' :: (nl ++ pa) := by
        apply sanitizeUrl_eq_self
        · intro c t hct
          injection hct with h1 _
          rw [← h1]; decide
        · intro c hc
          rcases List.mem_cons.mp hc with hc | hc
          · rw [hc]; decide
          rcases List.mem_cons.mp hc with hc | hc
          · rw [hc]; decide
          rcases List.mem_append.mp hc with hc | hc
          · exact hnlu c hc
          · exact hpau c hc
      exact urlsplitChars_stages _ _ [] ('/' :: ('/' :: (nl ++ pa))) nl pa pa pa [] [] hsan
        (splitScheme_head_slash _) (splitNetlocStage_authority hnl hT) hfs hqs
    · have hs' : sch ≠ [] := by
        cases sch with
        | nil => exact absurd hschN (by decide)
        | cons _ _ => simp
      have hschar : ∀ c ∈ sch, c.isAlpha = true ∨ isSchemeChar c = true :=
        fun c hc => isSchemeName_mem hschN hc
      have hSval : urlunsplitChars ⟨sch, nl, pa, [], []⟩ =
          sch ++ ':' :: ('/' :: '/' :: (nl ++ pa)) := by
        simp only [urlunsplitChars]
        rw [if_neg (fun hx => hx rfl), if_neg (fun hx => hx rfl), if_pos hs',
            if_pos hcond, hinner]
      rw [hSval]
      have hsan : sanitizeUrl (sch ++ ':' :: ('/' :: '/' :: (nl ++ pa))) =
          sch ++ ':' :: ('/' :: '/' :: (nl ++ pa)) := by
        apply sanitizeUrl_eq_self
        · intro c t hct
          cases sch with
          | nil => exact absurd rfl hs'
          | cons c0 t0 =>
            rw [List.cons_append] at hct
            injection hct with h1 _
            rw [← h1]
            exact (scheme_char_props (hschar c0 (List.mem_cons_self _ _))).2.1
        · intro c hc
          rcases List.mem_append.mp hc with hc | hc
          · exact (scheme_char_props (hschar c hc)).1
          rcases List.mem_cons.mp hc with hc | hc
          · rw [hc]; decide
          rcases List.mem_cons.mp hc with hc | hc
          · rw [hc]; decide
          rcases List.mem_cons.mp hc with hc | hc
          · rw [hc]; decide
          rcases List.mem_append.mp hc with hc | hc
          · exact hnlu c hc
          · exact hpau c hc
      exact urlsplitChars_stages _ _ sch ('/' :: '/' :: (nl ++ pa)) nl pa pa pa [] [] hsan
        (splitScheme_append_scheme hschN hschL) (splitNetlocStage_authority hnl hT) hfs hqs
  · have hT : (pa ++ '?' :: q) = [] ∨
        ∃ c t, pa ++ '?' :: q = c :: t ∧ isNetlocDelim c = true := by
      right
      cases pa with
      | nil => exact ⟨'?', q, rfl, by decide⟩
      | cons c0 t0 =>
        have hc0 : c0 = '/' := by
          rcases hpahd with h | h
          · cases h
          · simpa using h
        exact ⟨c0, t0 ++ '?' :: q, rfl, by rw [hc0]; decide⟩
    have hTnh : ('#' : Char) ∉ pa ++ '?' :: q := by
      intro hmem
      rcases List.mem_append.mp hmem with h | h
      · exact hpah h
      · rcases List.mem_cons.mp h with h | h
        · exact absurd h (by decide)
        · exact hqh h
    have hfs : splitFragStage (pa ++ '?' :: q) = (pa ++ '?' :: q, []) := splitFragStage_none hTnh
    have hqs : splitQueryStage (pa ++ '?' :: q) = (pa, q) := splitQueryStage_append hpaq
    have hTu : ∀ c ∈ pa ++ '?' :: q, isUnsafeUrlChar c = false := by
      intro c hc
      rcases List.mem_append.mp hc with hc | hc
      · exact hpau c hc
      rcases List.mem_cons.mp hc with hc | hc
      · rw [hc]; decide
      · exact hqu c hc
    rcases hsch with hs | ⟨hschN, hschL⟩
    · subst hs
      have hSval : urlunsplitChars ⟨[], nl, pa, q, []⟩ =
          '/' :: '/' :: (nl ++ (pa ++ '?' :: q)) := by
        simp only [urlunsplitChars]
        rw [if_neg (fun hx => hx rfl), if_pos hq, if_neg (fun hx => hx rfl),
            if_pos hcond, hinner]
        simp [List.append_assoc]
      rw [hSval]
      have hsan : sanitizeUrl ('/' :: '/' :: (nl ++ (pa ++ '?' :: q))) =
          '/' :: '/' :: (nl ++ (pa ++ '?' :: q)) := by
        apply sanitizeUrl_eq_self
        · intro c t hct
          injection hct with h1 _
          rw [← h1]; decide
        · intro c hc
          rcases List.mem_cons.mp hc with hc | hc
          · rw [hc]; decide
          rcases List.mem_cons.mp hc with hc | hc
          · rw [hc]; decide
          rcases List.mem_append.mp hc with hc | hc
          · exact hnlu c hc
          · exact hTu c hc
      exact urlsplitChars_stages _ _ [] ('/' :: ('/' :: (nl ++ (pa ++ '?' :: q)))) nl
        (pa ++ '?' :: q) (pa ++ '?' :: q) pa q [] hsan
        (splitScheme_head_slash _) (splitNetlocStage_authority hnl hT) hfs hqs
    · have hs' : sch ≠ [] := by
        cases sch with
        | nil => exact absurd hschN (by decide)
        | cons _ _ => simp
      have hschar : ∀ c ∈ sch, c.isAlpha = true ∨ isSchemeChar c = true :=
        fun c hc => isSchemeName_mem hschN hc
      have hSval : urlunsplitChars ⟨sch, nl, pa, q, []⟩ =
          sch ++ ':' :: ('/' :: '/' :: (nl ++ (pa ++ '?' :: q))) := by
        simp only [urlunsplitChars]
        rw [if_neg (fun hx => hx rfl), if_pos hq, if_pos hs', if_pos hcond, hinner]
        simp [List.append_assoc]
      rw [hSval]
      have hsan : sanitizeUrl (sch ++ ':' :: ('/' :: '/' :: (nl ++ (pa ++ '?' :: q)))) =
          sch ++ ':' :: ('/' :: '/' :: (nl ++ (pa ++ '?' :: q))) := by
        apply sanitizeUrl_eq_self
        · intro c t hct
          cases sch with
          | nil => exact absurd rfl hs'
          | cons c0 t0 =>
            rw [List.cons_append] at hct
            injection hct with h1 _
            rw [← h1]
            exact (scheme_char_props (hschar c0 (List.mem_cons_self _ _))).2.1
        · intro c hc
          rcases List.mem_append.mp hc with hc | hc
          · exact (scheme_char_props (hschar c hc)).1
          rcases List.mem_cons.mp hc with hc | hc
          · rw [hc]; decide
          rcases List.mem_cons.mp hc with hc | hc
          · rw [hc]; decide
          rcases List.mem_cons.mp hc with hc | hc
          · rw [hc]; decide
          rcases List.mem_append.mp hc with hc | hc
          · exact hnlu c hc
          · exact hTu c hc
      exact urlsplitChars_stages _ _ sch ('/' :: '/' :: (nl ++ (pa ++ '?' :: q))) nl
        (pa ++ '?' :: q) (pa ++ '?' :: q) pa q [] hsan
        (splitScheme_append_scheme hschN hschL) (splitNetlocStage_authority hnl hT) hfs hqs

/-! ## Idempotence of canonicalisation (nonempty netloc) -/

theorem canonChars_idem {u : Chars} (h : (urlsplitChars [] u).netloc ≠ []) :
    canonChars (canonChars u) = canonChars u := by
  have hresplit : urlsplitChars [] (canonChars u) =
      ⟨(urlsplitChars [] u).scheme, (urlsplitChars [] u).netloc,
       recombineParams (urlsplitChars [] u).scheme (urlsplitChars [] u).path,
       (urlsplitChars [] u).query, []⟩ := by
    rw [canonChars_eq_unsplit]
    apply urlsplit_unsplit
    · exact urlsplit_scheme_cases u
    · exact fun c hc => urlsplit_netloc_delim hc
    · exact h
    · exact recombineParams_slash (urlsplit_path_head h)
    · exact fun hm => urlsplit_path_no_hash [] u (recombineParams_mem hm)
    · exact fun hm => urlsplit_path_no_qm [] u (recombineParams_mem hm)
    · exact urlsplit_query_no_hash [] u
    · exact fun c hc => sanitizeUrl_not_unsafe (urlsplit_netloc_mem hc)
    · exact fun c hc => sanitizeUrl_not_unsafe (urlsplit_path_mem (recombineParams_mem hc))
    · exact fun c hc => sanitizeUrl_not_unsafe (urlsplit_query_mem hc)
  rw [canonChars_eq_unsplit (canonChars u)]
  simp only [hresplit]
  rw [recombineParams_idem]
  exact (canonChars_eq_unsplit u).symm

/-! ## Fragment insensitivity -/

theorem urlsplit_hash (b f : Chars) (hb : ('#' : Char) ∉ b) :
    urlsplitChars [] (b ++ '#' :: f) =
      ⟨(urlsplitChars [] b).scheme, (urlsplitChars [] b).netloc,
       (urlsplitChars [] b).path, (urlsplitChars [] b).query,
       f.filter (fun c => !(isUnsafeUrlChar c))⟩ := by
  have hb' : ('#' : Char) ∉ sanitizeUrl b := fun hc => hb (mem_sanitizeUrl hc)
  have hc' : ('#' : Char) ∉ (splitScheme [] (sanitizeUrl b)).2 :=
    fun hc => hb' (splitScheme_snd_mem hc)
  have hd' : ('#' : Char) ∉ (splitNetlocStage (splitScheme [] (sanitizeUrl b)).2).2 :=
    fun hc => hc' (splitNetlocStage_snd_mem hc)
  have hfr0 : splitFragStage ((splitNetlocStage (splitScheme [] (sanitizeUrl b)).2).2) =
      ((splitNetlocStage (splitScheme [] (sanitizeUrl b)).2).2, []) := splitFragStage_none hd'
  have hbeq : urlsplitChars [] b =
      ⟨(splitScheme [] (sanitizeUrl b)).1,
       (splitNetlocStage (splitScheme [] (sanitizeUrl b)).2).1,
       (splitQueryStage (splitNetlocStage (splitScheme [] (sanitizeUrl b)).2).2).1,
       (splitQueryStage (splitNetlocStage (splitScheme [] (sanitizeUrl b)).2).2).2,
       []⟩ :=
    urlsplitChars_stages b (sanitizeUrl b) _ _ _ _ _ _ _ _ rfl rfl rfl hfr0 rfl
  rw [hbeq]
  show urlsplitChars [] (b ++ '#' :: f) =
      ⟨(splitScheme [] (sanitizeUrl b)).1,
       (splitNetlocStage (splitScheme [] (sanitizeUrl b)).2).1,
       (splitQueryStage (splitNetlocStage (splitScheme [] (sanitizeUrl b)).2).2).1,
       (splitQueryStage (splitNetlocStage (splitScheme [] (sanitizeUrl b)).2).2).2,
       f.filter (fun c => !(isUnsafeUrlChar c))⟩
  exact urlsplitChars_stages _ _ _ _ _ _ _ _ _ _
    (sanitizeUrl_append_hash b f)
    (splitScheme_hash (sanitizeUrl b) (f.filter (fun c => !(isUnsafeUrlChar c))))
    (splitNetlocStage_hash hc')
    (splitFragStage_hash hd')
    rfl

theorem canonChars_hash (b f : Chars) (hb : ('#' : Char) ∉ b) :
    canonChars (b ++ '#' :: f) = canonChars b := by
  rw [canonChars_eq_unsplit (b ++ '#' :: f), canonChars_eq_unsplit b, urlsplit_hash b f hb]

/-- C7: canonicalisation is idempotent on URLs whose parsed netloc is
nonempty, and URLs differing only in their fragment canonicalise
identically. -/
theorem canon_idempotent_and_fragment_insensitive :
    (∀ u : String, (urlsplitUrl u).netloc ≠ [] →
        canonUrl (canonUrl u) = canonUrl u) ∧
    (∀ b f1 f2 : String, ('#' : Char) ∉ b.data →
        canonUrl (b ++ "#" ++ f1) = canonUrl (b ++ "#" ++ f2)) := by
  constructor
  · intro u h
    have hch := @canonChars_idem u.data h
    show (⟨canonChars (canonUrl u).data⟩ : String) = ⟨canonChars u.data⟩
    rw [show (canonUrl u).data = canonChars u.data from rfl, hch]
  · intro b f1 f2 hb
    have h1 : (b ++ "#" ++ f1).data = b.data ++ '#' :: f1.data := by
      rw [String.data_append, String.data_append]
      simp [List.append_assoc]
    have h2 : (b ++ "#" ++ f2).data = b.data ++ '#' :: f2.data := by
      rw [String.data_append, String.data_append]
      simp [List.append_assoc]
    show (⟨canonChars (b ++ "#" ++ f1).data⟩ : String) = ⟨canonChars (b ++ "#" ++ f2).data⟩
    rw [h1, h2, canonChars_hash _ _ hb, canonChars_hash _ _ hb]

theorem canon_idempotent_witness :
    canonUrl (canonUrl "http://h/p;x?q") = canonUrl "http://h/p;x?q" ∧
    canonUrl ("http://h/p" ++ "#" ++ "a") = canonUrl ("http://h/p" ++ "#" ++ "b") :=
  ⟨canon_idempotent_and_fragment_insensitive.1 "http://h/p;x?q" (by decide),
   canon_idempotent_and_fragment_insensitive.2 "http://h/p" "a" "b" (by decide)⟩

/-- C4: the links returned by `extract_links`. -/
theorem extract_links_characterization (hrefs : List String) (base l : String) :
    (l ∈ extract_links hrefs base ↔
      ∃ href, href ∈ hrefs ∧ href ≠ "" ∧
        strStartsWith (urljoinUrl base href) base = true ∧
        l = canonUrl (urljoinUrl base href)) ∧
    (l ∈ extract_links hrefs base → ('#' : Char) ∉ l.data) := by
  have hmem : ∀ l0 : String, l0 ∈ extract_links hrefs base ↔
      ∃ href, href ∈ hrefs ∧ href ≠ "" ∧
        strStartsWith (urljoinUrl base href) base = true ∧
        l0 = canonUrl (urljoinUrl base href) := by
    intro l0
    rw [extract_links, List.mem_filterMap]
    constructor
    · rintro ⟨href, hh, hf⟩
      by_cases h1 : href ≠ ""
      · by_cases h2 : strStartsWith (urljoinUrl base href) base = true
        · simp only [if_pos h1, if_pos h2] at hf
          exact ⟨href, hh, h1, h2, (Option.some.inj hf).symm⟩
        · simp only [if_pos h1, if_neg h2] at hf
          cases hf
      · simp only [if_neg h1] at hf
        cases hf
    · rintro ⟨href, hh, h1, h2, he⟩
      refine ⟨href, hh, ?_⟩
      show (if href ≠ "" then
          (if strStartsWith (urljoinUrl base href) base = true then
            some (canonUrl (urljoinUrl base href)) else none)
        else none) = some l0
      rw [if_pos h1, if_pos h2, he]
  refine ⟨hmem l, ?_⟩
  intro hl
  rcases (hmem l).mp hl with ⟨href, _, _, _, he⟩
  rw [he]
  show ('#' : Char) ∉ canonChars (urljoinUrl base href).data
  exact hash_not_mem_canonChars _

theorem extract_links_characterization_witness :
    "http://h/a" ∈ extract_links ["/a#f"] "http://h" ∧
    ('#' : Char) ∉ ("http://h/a").data :=
  ⟨((extract_links_characterization ["/a#f"] "http://h" "http://h/a").1).mpr
      ⟨"/a#f", by decide, by decide, by decide, by decide⟩,
   (extract_links_characterization ["/a#f"] "http://h" "http://h/a").2 (by decide)⟩
